import Mathlib

/-!
Verification of the ringlog event-logging core against its specification.

The development shallowly embeds the Rust sources of the repository:
byte buffers become `List Nat` (each entry one byte), machine integers
become `Nat` with explicit `% 2 ^ 64` where wrapping matters, and the
fallible constructors return `Except`/`Option`.  Each definition is a
direct transcription of the function of the same name in the source
tree (`src/ring/event.rs`, `src/ring/spsc.rs`, `src/storage/header.rs`,
`src/storage/mmap_writer.rs`, `src/storage/mmap_reader.rs`,
`src/event/header.rs`).
-/

/-! ## Byte-level primitives -/

/-- Little-endian byte image of a value, `n` bytes wide, as produced by the
`repr(C)` layout of the Rust integer fields on a little-endian host. -/
def leBytes : Nat → Nat → List Nat
  | 0, _ => []
  | n + 1, v => v % 256 :: leBytes n (v / 256)

/-- Little-endian decoding of a byte list, as performed by
`ptr::read_unaligned` of an integer field. -/
def leNat (bs : List Nat) : Nat := bs.foldr (fun b acc => b + 256 * acc) 0

theorem length_leBytes (n v : Nat) : (leBytes n v).length = n := by
  induction n generalizing v with
  | zero => rfl
  | succ n ih => simp [leBytes, ih]

theorem leNat_leBytes (n v : Nat) : leNat (leBytes n v) = v % 256 ^ n := by
  induction n generalizing v with
  | zero => simp [leBytes, leNat, Nat.mod_one]
  | succ n ih =>
    simp only [leBytes, leNat, List.foldr] at ih ⊢
    rw [ih (v / 256), pow_succ, mul_comm (256 ^ n) 256, Nat.mod_mul]

theorem leNat_leBytes_of_lt {n v : Nat} (h : v < 256 ^ n) : leNat (leBytes n v) = v := by
  rw [leNat_leBytes, Nat.mod_eq_of_lt h]

/-- Overwrite `buf[pos + i] := bs[i]` for each `i`, the model of a
`ptr::copy_nonoverlapping` into the backing byte array.  Stores whose
destination falls outside the list are dropped (`List.set` is the
identity there); the claim about raw out-of-bounds store addresses is
treated separately via the store-trace functions below. -/
def writeBytesAt : List Nat → Nat → List Nat → List Nat
  | buf, _, [] => buf
  | buf, pos, b :: bs => writeBytesAt (buf.set pos b) (pos + 1) bs

theorem length_writeBytesAt (bs : List Nat) (buf : List Nat) (pos : Nat) :
    (writeBytesAt buf pos bs).length = buf.length := by
  induction bs generalizing buf pos with
  | nil => rfl
  | cons b bs ih => simp [writeBytesAt, ih]

theorem getD_set_eq {l : List Nat} {i : Nat} (h : i < l.length) (v : Nat) :
    (l.set i v).getD i 0 = v := by
  simp [List.getD, List.getElem?_set_self, h]

theorem getD_set_ne {l : List Nat} {i j : Nat} (h : i ≠ j) (v : Nat) :
    (l.set i v).getD j 0 = l.getD j 0 := by
  simp [List.getD]
  rw [List.getElem?_set_ne h]

theorem getD_writeBytesAt (bs : List Nat) (buf : List Nat) (pos j : Nat)
    (hj : j < buf.length) :
    (writeBytesAt buf pos bs).getD j 0 =
      if pos ≤ j ∧ j < pos + bs.length then bs.getD (j - pos) 0 else buf.getD j 0 := by
  induction bs generalizing buf pos with
  | nil =>
    rw [writeBytesAt, if_neg (by simp only [List.length_nil]; omega)]
  | cons b bs ih =>
    rw [writeBytesAt, ih _ _ (by simpa using hj)]
    by_cases hpj : j = pos
    · subst hpj
      simp only [List.length_cons]
      rw [if_neg (by omega), if_pos (by omega)]
      simpa using getD_set_eq hj b
    · by_cases hin : pos + 1 ≤ j ∧ j < pos + 1 + bs.length
      · rw [if_pos hin, if_pos (by simp only [List.length_cons]; omega)]
        have : j - pos = (j - (pos + 1)) + 1 := by omega
        simp [this]
      · rw [if_neg hin, if_neg (by simp only [List.length_cons]; omega)]
        exact getD_set_ne (fun h => hpj h.symm) b

theorem writeBytesAt_append (a b : List Nat) (buf : List Nat) (pos : Nat) :
    writeBytesAt buf pos (a ++ b) = writeBytesAt (writeBytesAt buf pos a) (pos + a.length) b := by
  induction a generalizing buf pos with
  | nil => simp [writeBytesAt]
  | cons x a ih =>
    simp only [List.cons_append, writeBytesAt, List.length_cons]
    have harith : pos + (a.length + 1) = pos + 1 + a.length := by omega
    rw [harith, show a.append b = a ++ b from rfl, ih]

/-- Raw store addresses of a `ptr::copy_nonoverlapping(src, dst, len)`:
`dst, dst+1, …, dst+len-1`. -/
def copyRange (dst len : Nat) : List Nat := (List.range len).map (fun i => dst + i)

theorem mem_copyRange {dst len x : Nat} : x ∈ copyRange dst len ↔ dst ≤ x ∧ x < dst + len := by
  simp only [copyRange, List.mem_map, List.mem_range]
  constructor
  · rintro ⟨i, hi, rfl⟩; omega
  · intro h; exact ⟨x - dst, by omega, by omega⟩

/-! ## Generic modular-index helpers -/

theorem add_mod_inj {t a b C : Nat} (ha : a < C) (hb : b < C)
    (h : (t + a) % C = (t + b) % C) : a = b := by
  have h1 : a % C = b % C :=
    Nat.ModEq.add_left_cancel (Nat.ModEq.refl t) (show (t + a) ≡ (t + b) [MOD C] from h)
  rwa [Nat.mod_eq_of_lt ha, Nat.mod_eq_of_lt hb] at h1

theorem mod_eq_sub_of_lt_two_mul {a C : Nat} (h1 : C ≤ a) (h2 : a < 2 * C) :
    a % C = a - C := by
  rw [Nat.mod_eq_sub_mod h1, Nat.mod_eq_of_lt (by omega)]

/-- Reading `len` bytes that may wrap around the end of a circular byte
buffer: byte `i` comes from position `(start + i) % buf.length`. -/
def readWrapped (buf : List Nat) (start len : Nat) : List Nat :=
  (List.range len).map (fun i => buf.getD ((start + i) % buf.length) 0)

theorem length_readWrapped (buf : List Nat) (start len : Nat) :
    (readWrapped buf start len).length = len := by
  simp [readWrapped]

theorem getD_readWrapped (buf : List Nat) (start len i : Nat) (hi : i < len) :
    (readWrapped buf start len).getD i 0 = buf.getD ((start + i) % buf.length) 0 := by
  simp [readWrapped, List.getD, List.getElem?_map, List.getElem?_range hi]

/-- Take-of-drop as a map over a range of positions, for rewriting the
contiguous reads of the source into positional form. -/
theorem take_drop_eq_map_range (l : List Nat) (s n : Nat) (h : s + n ≤ l.length) :
    (l.drop s).take n = (List.range n).map (fun i => l.getD (s + i) 0) := by
  apply List.ext_getElem
  · simp only [List.length_take, List.length_drop, List.length_map, List.length_range]
    omega
  · intro i h1 h2
    simp only [List.length_take, List.length_drop] at h1
    have hi : i < n := by omega
    simp only [List.getElem_take, List.getElem_drop, List.getElem_map, List.getElem_range]
    have hsl : s + i < l.length := by omega
    simp [List.getD, List.getElem?_eq_getElem hsl]

/-- The wrap-aware record write used by both rings: the first
`buf.length - start` bytes go at `start`, the remainder wraps to
position `0`. -/
def writeWrapped (buf : List Nat) (start : Nat) (bytes : List Nat) : List Nat :=
  let contiguous := buf.length - start
  writeBytesAt (writeBytesAt buf start (bytes.take contiguous)) 0 (bytes.drop contiguous)

theorem length_writeWrapped (buf : List Nat) (start : Nat) (bytes : List Nat) :
    (writeWrapped buf start bytes).length = buf.length := by
  simp [writeWrapped, length_writeBytesAt]

theorem getD_take (l : List Nat) (n i : Nat) (h : i < n) :
    (l.take n).getD i 0 = l.getD i 0 := by
  simp [List.getD, List.getElem?_take, h]

theorem getD_drop (l : List Nat) (n i : Nat) :
    (l.drop n).getD i 0 = l.getD (n + i) 0 := by
  simp [List.getD, List.getElem?_drop]

theorem getD_writeWrapped_written {buf : List Nat} {start : Nat} (bytes : List Nat)
    (hstart : start < buf.length) (hlen : bytes.length ≤ buf.length)
    {i : Nat} (hi : i < bytes.length) :
    (writeWrapped buf start bytes).getD ((start + i) % buf.length) 0 = bytes.getD i 0 := by
  set C := buf.length with hC
  have hC0 : 0 < C := by omega
  unfold writeWrapped
  rw [← hC]
  by_cases hcase : start + i < C
  · have hmod : (start + i) % C = start + i := Nat.mod_eq_of_lt hcase
    rw [hmod]
    rw [getD_writeBytesAt _ _ _ _ (by simp [length_writeBytesAt, ← hC]; omega)]
    rw [if_neg (by simp only [List.length_drop]; omega)]
    rw [getD_writeBytesAt _ _ _ _ (by rw [← hC]; omega)]
    rw [if_pos (by simp only [List.length_take]; omega)]
    have : start + i - start = i := by omega
    rw [this, getD_take _ _ _ (by omega)]
  · have h2C : start + i < 2 * C := by omega
    have hmod : (start + i) % C = start + i - C := mod_eq_sub_of_lt_two_mul (by omega) h2C
    rw [hmod]
    rw [getD_writeBytesAt _ _ _ _ (by simp [length_writeBytesAt, ← hC]; omega)]
    rw [if_pos (by simp only [List.length_drop]; omega)]
    have : start + i - C - 0 = i - (C - start) := by omega
    rw [this, getD_drop]
    have : C - start + (i - (C - start)) = i := by omega
    rw [this]

theorem getD_writeWrapped_untouched {buf : List Nat} {start : Nat} (bytes : List Nat)
    (hstart : start < buf.length) (hlen : bytes.length ≤ buf.length)
    {j : Nat} (hj : j < buf.length)
    (hout : ∀ i, i < bytes.length → j ≠ (start + i) % buf.length) :
    (writeWrapped buf start bytes).getD j 0 = buf.getD j 0 := by
  set C := buf.length with hC
  unfold writeWrapped
  rw [← hC]
  rw [getD_writeBytesAt _ _ _ _ (by simp [length_writeBytesAt, ← hC]; omega)]
  rw [if_neg ?hnot1]
  case hnot1 =>
    simp only [List.length_drop]
    rintro ⟨-, hjlt⟩
    have hi : j + (C - start) < bytes.length := by omega
    apply hout _ hi
    have : start + (j + (C - start)) = j + C := by omega
    rw [this]
    have : (j + C) % C = j % C := by simp [Nat.add_mod_right]
    rw [this, Nat.mod_eq_of_lt hj]
  rw [getD_writeBytesAt _ _ _ _ (by rw [← hC]; omega)]
  rw [if_neg ?hnot2]
  case hnot2 =>
    simp only [List.length_take]
    rintro ⟨hle, hjlt⟩
    have hi : j - start < bytes.length := by omega
    apply hout _ hi
    have : start + (j - start) = j := by omega
    rw [this, Nat.mod_eq_of_lt hj]

/-! ## Event framing (src/event/header.rs) -/

/-- `EventHeader` from `src/event/header.rs`: `repr(C)` with fields
`timestamp: u64`, `event_type: u8`, `flags: u8`, `payload_len: u16`,
`_reserved: u32`. -/
structure EventHeader where
  timestamp : Nat
  event_type : Nat
  flags : Nat
  payload_len : Nat
  _reserved : Nat
deriving DecidableEq, Repr

namespace EventHeader

/-- `EventHeader::SIZE = 16`. -/
def SIZE : Nat := 16

/-- `EventHeader::new(timestamp, event_type, payload_len)`. -/
def new (timestamp event_type payload_len : Nat) : EventHeader :=
  { timestamp, event_type, flags := 0, payload_len, _reserved := 0 }

/-- `EventHeader::total_size() = SIZE + payload_len`. -/
def total_size (h : EventHeader) : Nat := SIZE + h.payload_len

/-- The ranges of the Rust field types (`u64`, `u8`, `u8`, `u16`, `u32`),
which every Rust value of the struct satisfies by construction. -/
def WF (h : EventHeader) : Prop :=
  h.timestamp < 2 ^ 64 ∧ h.event_type < 2 ^ 8 ∧ h.flags < 2 ^ 8 ∧
    h.payload_len < 2 ^ 16 ∧ h._reserved < 2 ^ 32

instance (h : EventHeader) : Decidable h.WF := by unfold WF; infer_instance

/-- The 16-byte little-endian image of the header, the bytes moved by
`ptr::write_unaligned(… as *mut EventHeader, *header)` on a
little-endian host (spec section 3 fixes this exact layout). -/
def bytes (h : EventHeader) : List Nat :=
  leBytes 8 h.timestamp ++ leBytes 1 h.event_type ++ leBytes 1 h.flags ++
    leBytes 2 h.payload_len ++ leBytes 4 h._reserved

theorem length_bytes (h : EventHeader) : h.bytes.length = 16 := by
  simp [bytes, length_leBytes]

theorem total_size_ge (h : EventHeader) : 16 ≤ h.total_size := by
  simp [total_size, SIZE]

end EventHeader

/-- Decoding of a 16-byte image back into an `EventHeader`, the model of
`ptr::read_unaligned(… as *const EventHeader)`. -/
def decodeEventHeader (bs : List Nat) : EventHeader :=
  { timestamp := leNat (bs.take 8)
    event_type := leNat ((bs.drop 8).take 1)
    flags := leNat ((bs.drop 9).take 1)
    payload_len := leNat ((bs.drop 10).take 2)
    _reserved := leNat ((bs.drop 12).take 4) }

theorem take_append_of_length_eq {a b : List Nat} {n : Nat} (h : a.length = n) :
    (a ++ b).take n = a := by
  subst h; exact List.take_left a b

theorem drop_append_of_length_eq {a b : List Nat} {n : Nat} (h : a.length = n) :
    (a ++ b).drop n = b := by
  subst h; exact List.drop_left a b

theorem decodeEventHeader_bytes {h : EventHeader} (hwf : h.WF) :
    decodeEventHeader h.bytes = h := by
  obtain ⟨h1, h2, h3, h4, h5⟩ := hwf
  rw [show (2:Nat) ^ 64 = 256 ^ 8 by norm_num] at h1
  rw [show (2:Nat) ^ 8 = 256 ^ 1 by norm_num] at h2 h3
  rw [show (2:Nat) ^ 16 = 256 ^ 2 by norm_num] at h4
  rw [show (2:Nat) ^ 32 = 256 ^ 4 by norm_num] at h5
  have hb : h.bytes = leBytes 8 h.timestamp ++ (leBytes 1 h.event_type ++ (leBytes 1 h.flags ++
      (leBytes 2 h.payload_len ++ leBytes 4 h._reserved))) := by
    simp [EventHeader.bytes]
  have hd8 : h.bytes.drop 8 = leBytes 1 h.event_type ++ (leBytes 1 h.flags ++
      (leBytes 2 h.payload_len ++ leBytes 4 h._reserved)) := by
    rw [hb]; exact drop_append_of_length_eq (length_leBytes 8 _)
  have hd9 : h.bytes.drop 9 = leBytes 1 h.flags ++
      (leBytes 2 h.payload_len ++ leBytes 4 h._reserved) := by
    rw [show (9:Nat) = 8 + 1 from rfl, ← List.drop_drop, hd8]
    exact drop_append_of_length_eq (length_leBytes 1 _)
  have hd10 : h.bytes.drop 10 = leBytes 2 h.payload_len ++ leBytes 4 h._reserved := by
    rw [show (10:Nat) = 9 + 1 from rfl, ← List.drop_drop, hd9]
    exact drop_append_of_length_eq (length_leBytes 1 _)
  have hd12 : h.bytes.drop 12 = leBytes 4 h._reserved := by
    rw [show (12:Nat) = 10 + 2 from rfl, ← List.drop_drop, hd10]
    exact drop_append_of_length_eq (length_leBytes 2 _)
  unfold decodeEventHeader
  rw [hd8, hd9, hd10, hd12, hb,
      take_append_of_length_eq (length_leBytes 8 _),
      take_append_of_length_eq (length_leBytes 1 _),
      take_append_of_length_eq (length_leBytes 1 _),
      take_append_of_length_eq (length_leBytes 2 _),
      List.take_of_length_le (le_of_eq (length_leBytes 4 _)),
      leNat_leBytes_of_lt h1, leNat_leBytes_of_lt h2, leNat_leBytes_of_lt h3,
      leNat_leBytes_of_lt h4, leNat_leBytes_of_lt h5]

/-! ## Ring errors (src/ring/ring_error.rs) -/

/-- `RingError` from `src/ring/ring_error.rs`. -/
inductive RingError where
  | NotEnoughSpace (required : Nat) (available : Nat)
  | InvalidCapacity (capacity : Nat) (reason : String)
  | PayloadTooLarge (payload_len : Nat) (max_len : Nat)
deriving DecidableEq, Repr

/-- Model of `usize::is_power_of_two` (`count_ones() == 1`): nonzero and
no bit shared with its predecessor. -/
def isPowerOfTwo (n : Nat) : Bool := n != 0 && (n &&& (n - 1)) == 0

theorem pow2_of_and_pred : ∀ n : Nat, n ≠ 0 → n &&& (n - 1) = 0 → ∃ k, n = 2 ^ k := by
  intro n
  induction n using Nat.strong_induction_on with
  | _ n ih =>
    intro hn0 hand
    rcases Nat.even_or_odd n with he | ho
    · obtain ⟨m, hm⟩ := he
      have hn2m : n = 2 * m := by omega
      have hm0 : m ≠ 0 := by omega
      have hbit : n &&& (n - 1) = 2 * (m &&& (m - 1)) := by
        rw [hn2m, show 2 * m - 1 = 2 * (m - 1) + 1 by omega,
          show 2 * m = Nat.bit false m from (congrFun Nat.bit_false m).symm,
          show 2 * (m - 1) + 1 = Nat.bit true (m - 1) from (congrFun Nat.bit_true (m - 1)).symm,
          Nat.land_bit]
        simp [Nat.bit_false]
      rw [hbit] at hand
      obtain ⟨k, hk⟩ := ih m (by omega) hm0 (by omega)
      exact ⟨k + 1, by rw [hn2m, hk, pow_succ]; ring⟩
    · obtain ⟨m, hm⟩ := ho
      by_cases hm0 : m = 0
      · exact ⟨0, by omega⟩
      · exfalso
        have hbit : n &&& (n - 1) = 2 * m := by
          rw [hm, show 2 * m + 1 - 1 = 2 * m by omega,
            show 2 * m + 1 = Nat.bit true m from (congrFun Nat.bit_true m).symm,
            show 2 * m = Nat.bit false m from (congrFun Nat.bit_false m).symm,
            Nat.land_bit]
          simp [Nat.bit_false, Nat.and_self]
        omega

theorem isPowerOfTwo_iff {n : Nat} : isPowerOfTwo n = true ↔ ∃ k, n = 2 ^ k := by
  unfold isPowerOfTwo
  rw [Bool.and_eq_true, bne_iff_ne, beq_iff_eq]
  constructor
  · intro h
    exact pow2_of_and_pred n h.1 h.2
  · rintro ⟨k, rfl⟩
    refine ⟨by positivity, ?_⟩
    rw [Nat.and_pow_two_sub_one_eq_mod, Nat.mod_self]

/-- `usize` wrapping subtraction `a.wrapping_sub(b)` for `a, b < 2^64`. -/
def usizeWrappingSub (a b : Nat) : Nat := (a + 2 ^ 64 - b) % 2 ^ 64

/-- `usize` wrapping addition `a.wrapping_add(b)`. -/
def usizeWrappingAdd (a b : Nat) : Nat := (a + b) % 2 ^ 64

/-! ## Single-threaded ring (src/ring/buffer.rs, src/ring/event.rs) -/

/-- `RingBuffer` from `src/ring/buffer.rs`. -/
structure RingBuffer where
  buf : List Nat
  capacity : Nat
  head : Nat
  tail : Nat
deriving DecidableEq, Repr

namespace RingBuffer

/-- `RingBuffer::new(capacity)` from `src/ring/event.rs`. -/
def new (capacity : Nat) : Except RingError RingBuffer :=
  if !isPowerOfTwo capacity then
    .error (.InvalidCapacity capacity "must be a power of two")
  else if capacity < EventHeader.SIZE * 2 then
    .error (.InvalidCapacity capacity "too small, must be at least 2x EventHeader::SIZE")
  else
    .ok { buf := List.replicate capacity 0, capacity := capacity, head := 0, tail := 0 }

/-- `RingBuffer::used`: `head.wrapping_sub(tail) & (capacity - 1)`. -/
def used (rb : RingBuffer) : Nat := usizeWrappingSub rb.head rb.tail &&& (rb.capacity - 1)

/-- `RingBuffer::available`: `capacity - used - 1`. -/
def available (rb : RingBuffer) : Nat := rb.capacity - rb.used - 1

/-- `RingBuffer::is_empty`: `head == tail`. -/
def isEmpty (rb : RingBuffer) : Bool := rb.head == rb.tail

/-- `RingBuffer::write_event` from `src/ring/event.rs` (lines 47–108).
Returns the `Result<(), RingError>` together with the post state; the
source's early `return Err` happens before any buffer mutation, so the
error case carries the unchanged state.  The three `unsafe` copy cases
(record contiguous / payload split / header split) are transcribed
one-to-one; `payload.len()` is the length of the slice argument, while
the reserved size is `header.total_size()`. -/
def write_event (rb : RingBuffer) (header : EventHeader) (payload : List Nat) :
    Except RingError Unit × RingBuffer :=
  let total_size := header.total_size
  let avail := rb.available
  if total_size > avail then
    (.error (.NotEnoughSpace total_size avail), rb)
  else
    let mask := rb.capacity - 1
    let start := rb.head
    let contiguous_space := rb.capacity - start
    let newBuf :=
      if total_size ≤ contiguous_space then
        writeBytesAt (writeBytesAt rb.buf start header.bytes)
          (start + EventHeader.SIZE) payload
      else if contiguous_space ≥ EventHeader.SIZE then
        let first_chunk := contiguous_space - EventHeader.SIZE
        writeBytesAt
          (writeBytesAt (writeBytesAt rb.buf start header.bytes)
            (start + EventHeader.SIZE) (payload.take first_chunk))
          0 (payload.drop first_chunk)
      else
        writeBytesAt
          (writeBytesAt (writeBytesAt rb.buf start (header.bytes.take contiguous_space))
            0 (header.bytes.drop contiguous_space))
          (EventHeader.SIZE - contiguous_space) payload
    (.ok (), { rb with buf := newBuf, head := (start + total_size) &&& mask })

/-- `RingBuffer::read_event` from `src/ring/event.rs` (lines 111–165).
Returns the decoded header, the freshly copied payload and the post
state.  The two header branches (contiguous / split across the wrap)
and the two payload branches are transcribed one-to-one. -/
def read_event (rb : RingBuffer) : Option (EventHeader × List Nat) × RingBuffer :=
  if rb.isEmpty then (none, rb)
  else
    let mask := rb.capacity - 1
    let start := rb.tail
    let contiguous := rb.capacity - start
    let headerBytes :=
      if contiguous ≥ EventHeader.SIZE then
        (rb.buf.drop start).take EventHeader.SIZE
      else
        (rb.buf.drop start).take contiguous ++ rb.buf.take (EventHeader.SIZE - contiguous)
    let header := decodeEventHeader headerBytes
    let payload_len := header.payload_len
    let payload_start := (start + EventHeader.SIZE) &&& mask
    let payload_contiguous := rb.capacity - payload_start
    let payload :=
      if payload_len ≤ payload_contiguous then
        (rb.buf.drop payload_start).take payload_len
      else
        (rb.buf.drop payload_start).take payload_contiguous ++
          rb.buf.take (payload_len - payload_contiguous)
    (some (header, payload), { rb with tail := (start + header.total_size) &&& mask })

end RingBuffer

/-! ## Queue abstraction for the rings -/

theorem getD_append_left {l1 l2 : List Nat} {i : Nat} (h : i < l1.length) :
    (l1 ++ l2).getD i 0 = l1.getD i 0 := by
  simp [List.getD, List.getElem?_append_left h]

theorem getD_append_right {l1 l2 : List Nat} (i : Nat) :
    (l1 ++ l2).getD (l1.length + i) 0 = l2.getD i 0 := by
  simp [List.getD, List.getElem?_append_right (show l1.length ≤ l1.length + i by omega)]

theorem ext_getD {l1 l2 : List Nat} (hlen : l1.length = l2.length)
    (h : ∀ i, i < l1.length → l1.getD i 0 = l2.getD i 0) : l1 = l2 := by
  apply List.ext_getElem hlen
  intro i h1 h2
  have := h i h1
  rwa [List.getD_eq_getElem _ _ h1, List.getD_eq_getElem _ _ h2] at this

/-- A logical event record: a header together with its payload bytes. -/
abbrev EventRec := EventHeader × List Nat

/-- The byte image of one record: 16 header bytes followed by the payload. -/
def encodeRecord (r : EventRec) : List Nat := r.1.bytes ++ r.2

/-- A record is well formed when its header fields fit the Rust integer
types and the payload slice length equals `payload_len` (the unchecked
precondition of all three writers). -/
def recWF (r : EventRec) : Prop := r.1.WF ∧ r.2.length = r.1.payload_len

instance (r : EventRec) : Decidable (recWF r) := by unfold recWF; infer_instance

/-- The byte stream of a queue of records, oldest first. -/
def queueBytes (q : List EventRec) : List Nat := (q.map encodeRecord).flatten

theorem queueBytes_nil : queueBytes [] = [] := rfl

theorem queueBytes_cons (r : EventRec) (q : List EventRec) :
    queueBytes (r :: q) = encodeRecord r ++ queueBytes q := rfl

theorem queueBytes_snoc (q : List EventRec) (r : EventRec) :
    queueBytes (q ++ [r]) = queueBytes q ++ encodeRecord r := by
  simp [queueBytes]

theorem length_encodeRecord {r : EventRec} (h : r.2.length = r.1.payload_len) :
    (encodeRecord r).length = r.1.total_size := by
  simp [encodeRecord, EventHeader.length_bytes, EventHeader.total_size, EventHeader.SIZE, h]

/-- Representation invariant for the single-threaded ring: the ring
state `rb` holds exactly the queue `q` of records, laid out byte for
byte starting at `tail`. -/
structure RingRepr (rb : RingBuffer) (q : List EventRec) : Prop where
  cap_pow : ∃ k, k ≤ 63 ∧ rb.capacity = 2 ^ k
  cap_ge : 32 ≤ rb.capacity
  buf_len : rb.buf.length = rb.capacity
  tail_lt : rb.tail < rb.capacity
  head_eq : rb.head = (rb.tail + (queueBytes q).length) % rb.capacity
  len_lt : (queueBytes q).length < rb.capacity
  content : ∀ i, i < (queueBytes q).length →
    rb.buf.getD ((rb.tail + i) % rb.capacity) 0 = (queueBytes q).getD i 0
  wf : ∀ r ∈ q, recWF r

theorem wrap_used_eq {T E tail L : Nat} (hd : T ∣ E) (htail : tail ≤ E) (hL : L < T) :
    ((tail + L) % T + E - tail) % T = L := by
  obtain ⟨e, rfl⟩ := hd
  have h1 : (tail + L) % T + T * e - tail = (tail + L) % T + (T * e - tail) := by omega
  rw [h1, Nat.mod_add_mod]
  have h2 : tail + L + (T * e - tail) = L + T * e := by omega
  rw [h2, Nat.add_mul_mod_self_left, Nat.mod_eq_of_lt hL]

theorem RingRepr.used_eq {rb : RingBuffer} {q : List EventRec} (h : RingRepr rb q) :
    rb.used = (queueBytes q).length := by
  obtain ⟨k, hk, hcap⟩ := h.cap_pow
  have hdvd : (2:Nat) ^ k ∣ 2 ^ 64 := pow_dvd_pow 2 (by omega)
  have htail : rb.tail ≤ 2 ^ 64 :=
    le_of_lt (lt_of_lt_of_le (hcap ▸ h.tail_lt) (Nat.pow_le_pow_right (by omega) (by omega)))
  unfold RingBuffer.used usizeWrappingSub
  rw [h.head_eq, hcap, Nat.and_pow_two_sub_one_eq_mod, Nat.mod_mod_of_dvd _ hdvd]
  exact wrap_used_eq hdvd htail (hcap ▸ h.len_lt)

theorem RingRepr.available_eq {rb : RingBuffer} {q : List EventRec} (h : RingRepr rb q) :
    rb.available = rb.capacity - (queueBytes q).length - 1 := by
  unfold RingBuffer.available
  rw [h.used_eq]

/-! ## The three wrap cases normalise to `writeWrapped` -/

theorem writeBytesAt_nil (buf : List Nat) (pos : Nat) : writeBytesAt buf pos [] = buf := rfl

theorem writeWrapped_contiguous {buf a p : List Nat} {start : Nat}
    (hle : a.length + p.length ≤ buf.length - start) :
    writeWrapped buf start (a ++ p) =
      writeBytesAt (writeBytesAt buf start a) (start + a.length) p := by
  unfold writeWrapped
  dsimp only
  have hlen : (a ++ p).length ≤ buf.length - start := by
    simp only [List.length_append]; omega
  rw [List.take_of_length_le hlen, List.drop_eq_nil_of_le hlen, writeBytesAt_nil,
    writeBytesAt_append]

theorem writeWrapped_payload_split {buf a p : List Nat} {start : Nat}
    (hgt : buf.length - start < a.length + p.length)
    (hge : a.length ≤ buf.length - start) :
    writeWrapped buf start (a ++ p) =
      writeBytesAt
        (writeBytesAt (writeBytesAt buf start a) (start + a.length)
          (p.take (buf.length - start - a.length)))
        0 (p.drop (buf.length - start - a.length)) := by
  unfold writeWrapped
  dsimp only
  rw [List.take_append_eq_append_take, List.drop_append_eq_append_drop,
    List.take_of_length_le hge, List.drop_eq_nil_of_le hge, List.nil_append,
    writeBytesAt_append]

theorem writeWrapped_header_split {buf a p : List Nat} {start : Nat}
    (hlt : buf.length - start < a.length) :
    writeWrapped buf start (a ++ p) =
      writeBytesAt
        (writeBytesAt (writeBytesAt buf start (a.take (buf.length - start)))
          0 (a.drop (buf.length - start)))
        (a.length - (buf.length - start)) p := by
  unfold writeWrapped
  dsimp only
  rw [List.take_append_eq_append_take, List.drop_append_eq_append_drop,
    Nat.sub_eq_zero_of_le (le_of_lt hlt), List.take_zero, List.append_nil, List.drop_zero,
    writeBytesAt_append, List.length_drop, Nat.zero_add]

/-! ## Ring write/read step lemmas -/

theorem write_event_fail {rb : RingBuffer} {h : EventHeader} {p : List Nat}
    (hgt : h.total_size > rb.available) :
    rb.write_event h p = (.error (.NotEnoughSpace h.total_size rb.available), rb) := by
  unfold RingBuffer.write_event
  rw [if_pos hgt]

theorem write_event_ok {rb : RingBuffer} {h : EventHeader} {p : List Nat}
    (hpl : p.length = h.payload_len)
    (hbuf : rb.buf.length = rb.capacity) (hstart : rb.head < rb.capacity)
    (hle : ¬ h.total_size > rb.available) :
    rb.write_event h p =
      (.ok (),
        { rb with
            buf := writeWrapped rb.buf rb.head (encodeRecord (h, p)),
            head := (rb.head + h.total_size) &&& (rb.capacity - 1) }) := by
  have hrec : encodeRecord (h, p) = h.bytes ++ p := rfl
  have hbl : h.bytes.length = EventHeader.SIZE := EventHeader.length_bytes h
  have htot : h.total_size = EventHeader.SIZE + p.length := by
    simp [EventHeader.total_size, hpl]
  unfold RingBuffer.write_event
  rw [if_neg hle]
  simp only [Prod.mk.injEq, RingBuffer.mk.injEq, and_true, true_and, hrec]
  split_ifs with hc1 hc2
  · rw [writeWrapped_contiguous (by rw [hbuf, hbl]; omega), hbl]
  · rw [writeWrapped_payload_split (by rw [hbuf, hbl]; omega) (by rw [hbuf, hbl]; omega),
      hbl, hbuf]
  · rw [writeWrapped_header_split (by rw [hbuf, hbl]; omega), hbl, hbuf]

theorem RingRepr.write_event_repr {rb : RingBuffer} {q : List EventRec} {h : EventHeader}
    {p : List Nat} (hrep : RingRepr rb q) (hwf : recWF (h, p))
    (hle : ¬ h.total_size > rb.available) :
    (rb.write_event h p).1 = .ok () ∧ RingRepr (rb.write_event h p).2 (q ++ [(h, p)]) := by
  obtain ⟨k, hk, hcap⟩ := hrep.cap_pow
  have hC0 : 0 < rb.capacity := by have := hrep.cap_ge; omega
  have hstart : rb.head < rb.capacity := hrep.head_eq ▸ Nat.mod_lt _ hC0
  have hpl : p.length = h.payload_len := hwf.2
  have hL := hrep.len_lt
  have havail := hrep.available_eq
  have htotle : h.total_size ≤ rb.capacity - (queueBytes q).length - 1 := by omega
  have henc : (encodeRecord (h, p)).length = h.total_size := length_encodeRecord hwf.2
  have hqlen : (queueBytes (q ++ [(h, p)])).length =
      (queueBytes q).length + h.total_size := by
    rw [queueBytes_snoc, List.length_append, henc]
  rw [write_event_ok hpl hrep.buf_len hstart hle]
  refine ⟨rfl, ?_, hrep.cap_ge, ?_, hrep.tail_lt, ?_, ?_, ?_, ?_⟩
  · exact ⟨k, hk, hcap⟩
  · simpa [length_writeWrapped] using hrep.buf_len
  · show (rb.head + h.total_size) &&& (rb.capacity - 1) = _
    rw [hqlen, hcap, Nat.and_pow_two_sub_one_eq_mod, hrep.head_eq, hcap, Nat.mod_add_mod,
      ← Nat.add_assoc]
  · show (queueBytes (q ++ [(h, p)])).length < rb.capacity
    rw [hqlen]; omega
  · show ∀ i, i < (queueBytes (q ++ [(h, p)])).length →
      (writeWrapped rb.buf rb.head (encodeRecord (h, p))).getD ((rb.tail + i) % rb.capacity) 0 =
        (queueBytes (q ++ [(h, p)])).getD i 0
    rw [hqlen]
    intro i hi
    have hmodC : ∀ x : Nat, x % rb.capacity = x % rb.buf.length := by
      intro x; rw [hrep.buf_len]
    have henclen : (encodeRecord (h, p)).length ≤ rb.buf.length := by
      rw [hrep.buf_len, henc]; omega
    have hstartb : rb.head < rb.buf.length := by rw [hrep.buf_len]; exact hstart
    by_cases hiL : i < (queueBytes q).length
    · have huntouched :
          (writeWrapped rb.buf rb.head (encodeRecord (h, p))).getD
            ((rb.tail + i) % rb.capacity) 0 = rb.buf.getD ((rb.tail + i) % rb.capacity) 0 := by
        rw [hmodC]
        apply getD_writeWrapped_untouched _ hstartb henclen
          (Nat.mod_lt _ (by rw [hrep.buf_len]; omega))
        intro j hj heq
        rw [← hmodC, ← hmodC] at heq
        have hheadj : (rb.head + j) % rb.capacity =
            (rb.tail + ((queueBytes q).length + j)) % rb.capacity := by
          rw [hrep.head_eq, Nat.mod_add_mod, Nat.add_assoc]
        rw [hheadj] at heq
        have hjenc : j < h.total_size := henc ▸ hj
        have := add_mod_inj (show i < rb.capacity by omega)
          (show (queueBytes q).length + j < rb.capacity by omega) heq
        omega
      rw [huntouched, hrep.content i hiL, queueBytes_snoc, getD_append_left hiL]
    · have hidec : i = (queueBytes q).length + (i - (queueBytes q).length) := by omega
      have hjlt : i - (queueBytes q).length < (encodeRecord (h, p)).length := by
        rw [henc]; omega
      have hpos : (rb.tail + i) % rb.capacity =
          (rb.head + (i - (queueBytes q).length)) % rb.capacity := by
        rw [hrep.head_eq, Nat.mod_add_mod, Nat.add_assoc, ← hidec]
      rw [hpos, hmodC,
        getD_writeWrapped_written _ hstartb henclen hjlt,
        queueBytes_snoc]
      conv_rhs => rw [hidec]
      rw [getD_append_right]
  · intro r hr
    rcases List.mem_append.mp hr with hr1 | hr2
    · exact hrep.wf r hr1
    · rcases List.mem_singleton.mp hr2 with rfl
      exact hwf

/-! ## Ring read step lemmas -/

theorem read_branch_eq_readWrapped {buf : List Nat} {C start len : Nat}
    (hbuf : buf.length = C) (hstart : start < C) (hlen : len ≤ C) :
    (if len ≤ C - start then (buf.drop start).take len
     else (buf.drop start).take (C - start) ++ buf.take (len - (C - start)))
      = readWrapped buf start len := by
  unfold readWrapped
  rw [hbuf]
  split_ifs with hc
  · rw [take_drop_eq_map_range _ _ _ (by omega)]
    apply List.map_congr_left
    intro i hi
    rw [List.mem_range] at hi
    rw [Nat.mod_eq_of_lt (by omega)]
  · have hsplit : len = (C - start) + (len - (C - start)) := by omega
    conv_rhs => rw [hsplit]
    rw [List.range_add, List.map_append, List.map_map]
    congr 1
    · rw [take_drop_eq_map_range _ _ _ (by omega)]
      apply List.map_congr_left
      intro i hi
      rw [List.mem_range] at hi
      rw [Nat.mod_eq_of_lt (by omega)]
    · have : buf.take (len - (C - start)) = (buf.drop 0).take (len - (C - start)) := by
        rw [List.drop_zero]
      rw [this, take_drop_eq_map_range _ _ _ (by omega)]
      apply List.map_congr_left
      intro i hi
      rw [List.mem_range] at hi
      show buf.getD (0 + i) 0 = buf.getD ((start + (C - start + i)) % C) 0
      have harith : start + (C - start + i) = i + C := by omega
      rw [harith, Nat.zero_add, Nat.add_mod_right, Nat.mod_eq_of_lt (by omega)]

theorem RingRepr.read_event_none {rb : RingBuffer} (hrep : RingRepr rb []) :
    rb.read_event = (none, rb) := by
  have hht : rb.head = rb.tail := by
    have h := hrep.head_eq
    simpa [queueBytes_nil, Nat.mod_eq_of_lt hrep.tail_lt] using h
  unfold RingBuffer.read_event
  rw [if_pos (by simp [RingBuffer.isEmpty, hht])]

theorem RingRepr.read_event_cons {rb : RingBuffer} {r : EventRec} {q : List EventRec}
    (hrep : RingRepr rb (r :: q)) :
    rb.read_event = (some (r.1, r.2),
      { rb with
          tail := (rb.tail + r.1.total_size) % rb.capacity }) := by
  obtain ⟨k, hk, hcap⟩ := hrep.cap_pow
  have hC0 : 0 < rb.capacity := by have := hrep.cap_ge; omega
  have hwfr : recWF r := hrep.wf r (List.mem_cons_self r q)
  have hplen : r.2.length = r.1.payload_len := hwfr.2
  have henc : (encodeRecord r).length = r.1.total_size := length_encodeRecord hplen
  have hL : (queueBytes (r :: q)).length = r.1.total_size + (queueBytes q).length := by
    rw [queueBytes_cons, List.length_append, henc]
  have h16 : (EventHeader.SIZE : Nat) = 16 := rfl
  have htt : r.1.total_size = 16 + r.1.payload_len := rfl
  have hLlt := hrep.len_lt
  have hplt : r.1.payload_len < rb.capacity := by omega
  have hne : ¬ rb.head = rb.tail := by
    intro heq
    have h0 : (rb.tail + (queueBytes (r :: q)).length) % rb.capacity
        = (rb.tail + 0) % rb.capacity := by
      rw [Nat.add_zero, Nat.mod_eq_of_lt hrep.tail_lt]
      exact hrep.head_eq.symm.trans heq
    have := add_mod_inj hLlt hC0 h0
    omega
  have hand : ∀ x : Nat, x &&& (rb.capacity - 1) = x % rb.capacity := by
    intro x; rw [hcap, Nat.and_pow_two_sub_one_eq_mod]
  have hheader : decodeEventHeader
      (if rb.capacity - rb.tail ≥ EventHeader.SIZE then
        (rb.buf.drop rb.tail).take EventHeader.SIZE
      else
        (rb.buf.drop rb.tail).take (rb.capacity - rb.tail) ++
          rb.buf.take (EventHeader.SIZE - (rb.capacity - rb.tail))) = r.1 := by
    simp only [ge_iff_le]
    rw [read_branch_eq_readWrapped hrep.buf_len hrep.tail_lt
      (show EventHeader.SIZE ≤ rb.capacity by have := hrep.cap_ge; omega)]
    have hrw : readWrapped rb.buf rb.tail EventHeader.SIZE = r.1.bytes := by
      apply ext_getD
      · rw [length_readWrapped, EventHeader.length_bytes]; exact h16
      · intro i hi
        rw [length_readWrapped] at hi
        rw [getD_readWrapped _ _ _ _ hi, hrep.buf_len]
        have hiL : i < (queueBytes (r :: q)).length := by omega
        rw [hrep.content i hiL, queueBytes_cons,
          getD_append_left (by rw [henc]; omega)]
        exact getD_append_left (by rw [EventHeader.length_bytes]; omega)
    rw [hrw, decodeEventHeader_bytes hwfr.1]
  unfold RingBuffer.read_event
  rw [if_neg (by simp [RingBuffer.isEmpty, hne])]
  dsimp only
  rw [hheader]
  rw [hand (rb.tail + EventHeader.SIZE)]
  have hps_lt : (rb.tail + EventHeader.SIZE) % rb.capacity < rb.capacity := Nat.mod_lt _ hC0
  have hpayload :
      (if r.1.payload_len ≤ rb.capacity - (rb.tail + EventHeader.SIZE) % rb.capacity then
        (rb.buf.drop ((rb.tail + EventHeader.SIZE) % rb.capacity)).take r.1.payload_len
      else
        (rb.buf.drop ((rb.tail + EventHeader.SIZE) % rb.capacity)).take
            (rb.capacity - (rb.tail + EventHeader.SIZE) % rb.capacity) ++
          rb.buf.take
            (r.1.payload_len - (rb.capacity - (rb.tail + EventHeader.SIZE) % rb.capacity)))
        = r.2 := by
    rw [read_branch_eq_readWrapped hrep.buf_len hps_lt (le_of_lt hplt)]
    apply ext_getD
    · rw [length_readWrapped, hplen]
    · intro i hi
      rw [length_readWrapped] at hi
      rw [getD_readWrapped _ _ _ _ hi, hrep.buf_len, Nat.mod_add_mod]
      have harr : rb.tail + EventHeader.SIZE + i = rb.tail + (EventHeader.SIZE + i) := by omega
      rw [harr]
      have hiL : EventHeader.SIZE + i < (queueBytes (r :: q)).length := by omega
      rw [hrep.content _ hiL, queueBytes_cons,
        show encodeRecord r ++ queueBytes q = r.1.bytes ++ (r.2 ++ queueBytes q) by
          simp [encodeRecord, List.append_assoc],
        show EventHeader.SIZE + i = r.1.bytes.length + i by rw [EventHeader.length_bytes, h16],
        getD_append_right]
      exact getD_append_left (by rw [hplen]; exact hi)
  rw [hpayload, hand (rb.tail + r.1.total_size)]

theorem RingRepr.read_event_repr {rb : RingBuffer} {r : EventRec} {q : List EventRec}
    (hrep : RingRepr rb (r :: q)) :
    RingRepr { rb with tail := (rb.tail + r.1.total_size) % rb.capacity } q := by
  obtain ⟨k, hk, hcap⟩ := hrep.cap_pow
  have hC0 : 0 < rb.capacity := by have := hrep.cap_ge; omega
  have hwfr : recWF r := hrep.wf r (List.mem_cons_self r q)
  have henc : (encodeRecord r).length = r.1.total_size := length_encodeRecord hwfr.2
  have hL : (queueBytes (r :: q)).length = r.1.total_size + (queueBytes q).length := by
    rw [queueBytes_cons, List.length_append, henc]
  have hLlt := hrep.len_lt
  refine ⟨⟨k, hk, hcap⟩, hrep.cap_ge, hrep.buf_len, Nat.mod_lt _ hC0, ?_, ?_, ?_, ?_⟩
  · show rb.head =
      ((rb.tail + r.1.total_size) % rb.capacity + (queueBytes q).length) % rb.capacity
    rw [Nat.mod_add_mod, Nat.add_assoc, ← hL]
    exact hrep.head_eq
  · show (queueBytes q).length < rb.capacity
    omega
  · intro i hi
    show rb.buf.getD (((rb.tail + r.1.total_size) % rb.capacity + i) % rb.capacity) 0 =
      (queueBytes q).getD i 0
    rw [Nat.mod_add_mod, Nat.add_assoc]
    have hiL : r.1.total_size + i < (queueBytes (r :: q)).length := by omega
    rw [hrep.content _ hiL, queueBytes_cons,
      show r.1.total_size + i = (encodeRecord r).length + i by rw [henc],
      getD_append_right]
  · intro x hx
    exact hrep.wf x (List.mem_cons_of_mem _ hx)

/-! ## FIFO simulation for the single-threaded ring -/

theorem ringRepr_new {C : Nat} {rb : RingBuffer} (hC : C < 2 ^ 64)
    (hnew : RingBuffer.new C = .ok rb) : RingRepr rb [] := by
  unfold RingBuffer.new at hnew
  split_ifs at hnew with h1 h2
  have hpow : isPowerOfTwo C = true := by simpa using h1
  obtain ⟨k, hk⟩ := isPowerOfTwo_iff.mp hpow
  have h32 : 32 ≤ C := by
    have hlt : ¬ C < EventHeader.SIZE * 2 := h2
    have hsz : EventHeader.SIZE * 2 = 32 := rfl
    omega
  have hk63 : k ≤ 63 := by
    by_contra hgt
    have : 2 ^ 64 ≤ 2 ^ k := Nat.pow_le_pow_right (by omega) (by omega)
    omega
  injection hnew with hnew
  subst hnew
  constructor
  · exact ⟨k, hk63, hk⟩
  · exact h32
  · show (List.replicate C 0).length = C
    simp
  · show (0:Nat) < C
    omega
  · show (0:Nat) = (0 + (queueBytes []).length) % C
    simp [queueBytes_nil]
  · show (queueBytes []).length < C
    simp only [queueBytes_nil, List.length_nil]
    omega
  · intro i hi
    simp [queueBytes_nil] at hi
  · intro r hr
    simp at hr

/-- One call against the single-threaded ring. -/
inductive RingOp where
  | write (h : EventHeader) (p : List Nat)
  | read

/-- Run a list of calls, returning the final state together with the
successful writes and the successful reads, each in call order. -/
def runOps : RingBuffer → List RingOp → RingBuffer × List EventRec × List EventRec
  | rb, [] => (rb, [], [])
  | rb, RingOp.write h p :: rest =>
    let res := rb.write_event h p
    match res.1 with
    | .ok _ =>
      let out := runOps res.2 rest
      (out.1, (h, p) :: out.2.1, out.2.2)
    | .error _ => runOps res.2 rest
  | rb, RingOp.read :: rest =>
    let res := rb.read_event
    match res.1 with
    | some ev =>
      let out := runOps res.2 rest
      (out.1, out.2.1, ev :: out.2.2)
    | none => runOps res.2 rest

/-- Well-formedness of a call list: each write passes a payload slice of
exactly `payload_len` bytes and header fields in their Rust ranges. -/
def opsWF : List RingOp → Prop
  | [] => True
  | RingOp.write h p :: rest => recWF (h, p) ∧ opsWF rest
  | RingOp.read :: rest => opsWF rest

instance opsWF.dec : (ops : List RingOp) → Decidable (opsWF ops)
  | [] => by unfold opsWF; infer_instance
  | RingOp.write h p :: rest => by
    unfold opsWF
    have := opsWF.dec rest
    infer_instance
  | RingOp.read :: rest => by
    unfold opsWF
    have := opsWF.dec rest
    infer_instance

theorem runOps_fifo {ops : List RingOp} :
    ∀ {rb : RingBuffer} {q : List EventRec}, RingRepr rb q → opsWF ops →
    ∃ q2, RingRepr (runOps rb ops).1 q2 ∧
      q ++ (runOps rb ops).2.1 = (runOps rb ops).2.2 ++ q2 := by
  induction ops with
  | nil =>
    intro rb q hrep _
    exact ⟨q, hrep, by simp [runOps]⟩
  | cons op rest ih =>
    intro rb q hrep hwf
    cases op with
    | write h p =>
      obtain ⟨hw, hrest⟩ := hwf
      by_cases hgt : h.total_size > rb.available
      · have heq := @write_event_fail rb h p hgt
        simp only [runOps, heq]
        exact ih hrep hrest
      · obtain ⟨hok, hrep2⟩ := RingRepr.write_event_repr hrep hw hgt
        simp only [runOps, hok]
        obtain ⟨q2, hq2, heq⟩ := ih hrep2 hrest
        refine ⟨q2, hq2, ?_⟩
        rw [List.append_assoc] at heq
        simpa using heq
    | read =>
      cases q with
      | nil =>
        have heq := RingRepr.read_event_none hrep
        simp only [runOps, heq]
        exact ih hrep hwf
      | cons r q1 =>
        have heq := RingRepr.read_event_cons hrep
        have hrep2 := RingRepr.read_event_repr hrep
        simp only [runOps, heq]
        obtain ⟨q2, hq2, hlst⟩ := ih hrep2 hwf
        refine ⟨q2, hq2, ?_⟩
        simpa using hlst

/-! ## SPSC ring (src/ring/spsc.rs) -/

/-- `SpscRingBuffer` from `src/ring/spsc.rs`.  `head` and `tail` are the
monotonically increasing `u64`/`usize` counters stored in the two
atomics; the sequential model keeps them as `Nat` values below `2^64`
and performs every counter update with explicit wrapping.  The memory
orderings (Acquire/Release) have no observable effect in a sequential
interleaving model and are dropped. -/
structure SpscRingBuffer where
  buf : List Nat
  capacity : Nat
  mask : Nat
  head : Nat
  tail : Nat
deriving DecidableEq, Repr

namespace SpscRingBuffer

/-- `SpscRingBuffer::new(capacity)`: the two `assert!`s become the
`Option` guard (`none` models the panic). -/
def new (capacity : Nat) : Option SpscRingBuffer :=
  if isPowerOfTwo capacity ∧ 64 ≤ capacity then
    some { buf := List.replicate capacity 0, capacity := capacity,
           mask := capacity - 1, head := 0, tail := 0 }
  else none

/-- `SpscRingBuffer::is_empty`. -/
def isEmpty (s : SpscRingBuffer) : Bool := s.head == s.tail

end SpscRingBuffer

/-- `Producer::write_event` from `src/ring/spsc.rs` (lines 41–101),
returning the `bool` result together with the post state.  The three
copy cases match the single-threaded ring except that the position is
the masked counter and the payload-split case guards the first chunk
copy with `first_chunk > 0` (a copy of zero bytes otherwise). -/
def Producer.write_event (s : SpscRingBuffer) (header : EventHeader) (payload : List Nat) :
    Bool × SpscRingBuffer :=
  let total_size := header.total_size
  let head := s.head
  let tail := s.tail
  let avail := s.capacity - usizeWrappingSub head tail - 1
  if total_size > avail then (false, s)
  else
    let mask := s.mask
    let start := head &&& mask
    let contiguous := s.capacity - start
    let newBuf :=
      if total_size ≤ contiguous then
        writeBytesAt (writeBytesAt s.buf start header.bytes)
          (start + EventHeader.SIZE) payload
      else if contiguous ≥ EventHeader.SIZE then
        let first_chunk := contiguous - EventHeader.SIZE
        let buf1 := writeBytesAt s.buf start header.bytes
        let buf2 :=
          if first_chunk > 0 then
            writeBytesAt buf1 (start + EventHeader.SIZE) (payload.take first_chunk)
          else buf1
        writeBytesAt buf2 0 (payload.drop first_chunk)
      else
        writeBytesAt
          (writeBytesAt (writeBytesAt s.buf start (header.bytes.take contiguous))
            0 (header.bytes.drop contiguous))
          (EventHeader.SIZE - contiguous) payload
    (true, { s with buf := newBuf, head := usizeWrappingAdd head total_size })

/-- `Consumer::read_event` from `src/ring/spsc.rs` (lines 105–161). -/
def Consumer.read_event (s : SpscRingBuffer) :
    Option (EventHeader × List Nat) × SpscRingBuffer :=
  let tail := s.tail
  let head := s.head
  if head = tail then (none, s)
  else
    let mask := s.mask
    let start := tail &&& mask
    let contiguous := s.capacity - start
    let headerBytes :=
      if contiguous ≥ EventHeader.SIZE then
        (s.buf.drop start).take EventHeader.SIZE
      else
        (s.buf.drop start).take contiguous ++ s.buf.take (EventHeader.SIZE - contiguous)
    let header := decodeEventHeader headerBytes
    let payload_len := header.payload_len
    let payload_start := (start + EventHeader.SIZE) &&& mask
    let payload_contiguous := s.capacity - payload_start
    let payload :=
      if payload_len ≤ payload_contiguous then
        (s.buf.drop payload_start).take payload_len
      else
        (s.buf.drop payload_start).take payload_contiguous ++
          s.buf.take (payload_len - payload_contiguous)
    (some (header, payload), { s with tail := usizeWrappingAdd tail header.total_size })

/-! ## SPSC representation invariant -/

theorem mod_dvd_add_mod {C E : Nat} (x i : Nat) (h : C ∣ E) :
    (x % E + i) % C = (x + i) % C := by
  rw [Nat.add_mod, Nat.mod_mod_of_dvd x h, ← Nat.add_mod]

/-- Representation invariant for the SPSC ring: state `s` holds exactly
the queue `q`, laid out starting at position `tail % capacity`, with the
monotone counters separated by the byte length of the queue (mod `2^64`). -/
structure SpscRepr (s : SpscRingBuffer) (q : List EventRec) : Prop where
  cap_pow : ∃ k, k ≤ 63 ∧ s.capacity = 2 ^ k
  cap_ge : 64 ≤ s.capacity
  mask_eq : s.mask = s.capacity - 1
  buf_len : s.buf.length = s.capacity
  head_lt : s.head < 2 ^ 64
  tail_lt : s.tail < 2 ^ 64
  head_eq : s.head = (s.tail + (queueBytes q).length) % 2 ^ 64
  len_lt : (queueBytes q).length < s.capacity
  content : ∀ i, i < (queueBytes q).length →
    s.buf.getD ((s.tail + i) % s.capacity) 0 = (queueBytes q).getD i 0
  wf : ∀ r ∈ q, recWF r

theorem SpscRepr.cap_le {s : SpscRingBuffer} {q : List EventRec} (h : SpscRepr s q) :
    s.capacity ≤ 2 ^ 64 := by
  obtain ⟨k, hk, hcap⟩ := h.cap_pow
  rw [hcap]
  exact Nat.pow_le_pow_right (by omega) (by omega)

theorem SpscRepr.spsc_used_eq {s : SpscRingBuffer} {q : List EventRec} (h : SpscRepr s q) :
    usizeWrappingSub s.head s.tail = (queueBytes q).length := by
  unfold usizeWrappingSub
  rw [h.head_eq]
  exact wrap_used_eq dvd_rfl (le_of_lt h.tail_lt) (lt_of_lt_of_le h.len_lt h.cap_le)

theorem SpscRepr.dvd64 {s : SpscRingBuffer} {q : List EventRec} (h : SpscRepr s q) :
    s.capacity ∣ 2 ^ 64 := by
  obtain ⟨k, hk, hcap⟩ := h.cap_pow
  rw [hcap]
  exact pow_dvd_pow 2 (by omega)

theorem producer_write_fail {s : SpscRingBuffer} {h : EventHeader} {p : List Nat}
    (hgt : h.total_size > s.capacity - usizeWrappingSub s.head s.tail - 1) :
    Producer.write_event s h p = (false, s) := by
  unfold Producer.write_event
  rw [if_pos hgt]

theorem producer_write_event_ok {s : SpscRingBuffer} {h : EventHeader} {p : List Nat}
    (hpl : p.length = h.payload_len) (hbuf : s.buf.length = s.capacity)
    (hmask : s.mask = s.capacity - 1)
    (hcap : ∃ k, k ≤ 63 ∧ s.capacity = 2 ^ k)
    (hle : ¬ h.total_size > s.capacity - usizeWrappingSub s.head s.tail - 1) :
    Producer.write_event s h p =
      (true,
        { s with
            buf := writeWrapped s.buf (s.head % s.capacity) (encodeRecord (h, p)),
            head := usizeWrappingAdd s.head h.total_size }) := by
  obtain ⟨k, hk, hcapk⟩ := hcap
  have hC0 : 0 < s.capacity := by rw [hcapk]; positivity
  have hstartmod : s.head &&& s.mask = s.head % s.capacity := by
    rw [hmask, hcapk, Nat.and_pow_two_sub_one_eq_mod]
  have hstart : s.head % s.capacity < s.capacity := Nat.mod_lt _ hC0
  have hrec : encodeRecord (h, p) = h.bytes ++ p := rfl
  have hbl : h.bytes.length = EventHeader.SIZE := EventHeader.length_bytes h
  have htot : h.total_size = EventHeader.SIZE + p.length := by
    simp [EventHeader.total_size, hpl]
  unfold Producer.write_event
  rw [if_neg hle]
  dsimp only
  rw [hstartmod]
  simp only [Prod.mk.injEq, SpscRingBuffer.mk.injEq, and_true, true_and, hrec]
  split_ifs with hc1 hc2 hfc
  · rw [writeWrapped_contiguous (by rw [hbuf, hbl]; omega), hbl]
  · rw [writeWrapped_payload_split (by rw [hbuf, hbl]; omega) (by rw [hbuf, hbl]; omega),
      hbl, hbuf]
  · have hfc0 : s.capacity - s.head % s.capacity - EventHeader.SIZE = 0 := by omega
    rw [writeWrapped_payload_split (by rw [hbuf, hbl]; omega) (by rw [hbuf, hbl]; omega),
      hbl, hbuf, hfc0, List.take_zero, writeBytesAt_nil]
  · rw [writeWrapped_header_split (by rw [hbuf, hbl]; omega), hbl, hbuf]

theorem SpscRepr.producer_write_repr {s : SpscRingBuffer} {q : List EventRec}
    {h : EventHeader} {p : List Nat} (hrep : SpscRepr s q) (hwf : recWF (h, p))
    (hle : ¬ h.total_size > s.capacity - usizeWrappingSub s.head s.tail - 1) :
    (Producer.write_event s h p).1 = true ∧
      SpscRepr (Producer.write_event s h p).2 (q ++ [(h, p)]) := by
  obtain ⟨k, hk, hcapk⟩ := hrep.cap_pow
  have hC0 : 0 < s.capacity := by have := hrep.cap_ge; omega
  have hpl : p.length = h.payload_len := hwf.2
  have hL := hrep.len_lt
  have htotle : h.total_size ≤ s.capacity - (queueBytes q).length - 1 := by
    rw [hrep.spsc_used_eq] at hle
    omega
  have henc : (encodeRecord (h, p)).length = h.total_size := length_encodeRecord hwf.2
  have hqlen : (queueBytes (q ++ [(h, p)])).length =
      (queueBytes q).length + h.total_size := by
    rw [queueBytes_snoc, List.length_append, henc]
  rw [producer_write_event_ok hpl hrep.buf_len hrep.mask_eq ⟨k, hk, hcapk⟩ hle]
  refine ⟨rfl, ⟨k, hk, hcapk⟩, hrep.cap_ge, hrep.mask_eq, ?_, ?_, hrep.tail_lt, ?_, ?_, ?_, ?_⟩
  · simpa [length_writeWrapped] using hrep.buf_len
  · show usizeWrappingAdd s.head h.total_size < 2 ^ 64
    exact Nat.mod_lt _ (by positivity)
  · show usizeWrappingAdd s.head h.total_size =
      (s.tail + (queueBytes (q ++ [(h, p)])).length) % 2 ^ 64
    unfold usizeWrappingAdd
    rw [hqlen, hrep.head_eq, Nat.mod_add_mod, ← Nat.add_assoc]
  · show (queueBytes (q ++ [(h, p)])).length < s.capacity
    rw [hqlen]; omega
  · show ∀ i, i < (queueBytes (q ++ [(h, p)])).length →
      (writeWrapped s.buf (s.head % s.capacity) (encodeRecord (h, p))).getD
          ((s.tail + i) % s.capacity) 0 =
        (queueBytes (q ++ [(h, p)])).getD i 0
    rw [hqlen]
    intro i hi
    have henclen : (encodeRecord (h, p)).length ≤ s.buf.length := by
      rw [hrep.buf_len, henc]; omega
    have hstartb : s.head % s.buf.length < s.buf.length :=
      Nat.mod_lt _ (by rw [hrep.buf_len]; omega)
    have hheadpos : ∀ j : Nat, (s.head % s.capacity + j) % s.capacity =
        (s.tail + ((queueBytes q).length + j)) % s.capacity := by
      intro j
      rw [Nat.mod_add_mod, hrep.head_eq, mod_dvd_add_mod _ _ hrep.dvd64, Nat.add_assoc]
    by_cases hiL : i < (queueBytes q).length
    · have huntouched :
          (writeWrapped s.buf (s.head % s.capacity) (encodeRecord (h, p))).getD
            ((s.tail + i) % s.capacity) 0 = s.buf.getD ((s.tail + i) % s.capacity) 0 := by
        rw [← hrep.buf_len]
        apply getD_writeWrapped_untouched _ hstartb henclen
          (Nat.mod_lt _ (by rw [hrep.buf_len]; omega))
        intro j hj heq
        rw [hrep.buf_len] at heq
        rw [hheadpos j] at heq
        have hjenc : j < h.total_size := henc ▸ hj
        have := add_mod_inj (show i < s.capacity by omega)
          (show (queueBytes q).length + j < s.capacity by omega) heq
        omega
      rw [huntouched, hrep.content i hiL, queueBytes_snoc, getD_append_left hiL]
    · have hidec : i = (queueBytes q).length + (i - (queueBytes q).length) := by omega
      have hjlt : i - (queueBytes q).length < (encodeRecord (h, p)).length := by
        rw [henc]; omega
      have hpos : (s.tail + i) % s.capacity =
          (s.head % s.capacity + (i - (queueBytes q).length)) % s.capacity := by
        rw [hheadpos, ← hidec]
      rw [hpos, ← hrep.buf_len,
        getD_writeWrapped_written _ hstartb henclen hjlt,
        queueBytes_snoc]
      conv_rhs => rw [hidec]
      rw [getD_append_right]
  · intro r hr
    rcases List.mem_append.mp hr with hr1 | hr2
    · exact hrep.wf r hr1
    · rcases List.mem_singleton.mp hr2 with rfl
      exact hwf

theorem SpscRepr.consumer_read_none {s : SpscRingBuffer} (hrep : SpscRepr s []) :
    Consumer.read_event s = (none, s) := by
  have hht : s.head = s.tail := by
    have h := hrep.head_eq
    rw [queueBytes_nil, List.length_nil, Nat.add_zero,
      Nat.mod_eq_of_lt hrep.tail_lt] at h
    exact h
  unfold Consumer.read_event
  rw [if_pos hht]

theorem SpscRepr.consumer_read_cons {s : SpscRingBuffer} {r : EventRec} {q : List EventRec}
    (hrep : SpscRepr s (r :: q)) :
    Consumer.read_event s = (some (r.1, r.2),
      { s with
          tail := usizeWrappingAdd s.tail r.1.total_size }) := by
  obtain ⟨k, hk, hcap⟩ := hrep.cap_pow
  have hC0 : 0 < s.capacity := by have := hrep.cap_ge; omega
  have hwfr : recWF r := hrep.wf r (List.mem_cons_self r q)
  have hplen : r.2.length = r.1.payload_len := hwfr.2
  have henc : (encodeRecord r).length = r.1.total_size := length_encodeRecord hplen
  have hL : (queueBytes (r :: q)).length = r.1.total_size + (queueBytes q).length := by
    rw [queueBytes_cons, List.length_append, henc]
  have h16 : (EventHeader.SIZE : Nat) = 16 := rfl
  have htt : r.1.total_size = 16 + r.1.payload_len := rfl
  have hLlt := hrep.len_lt
  have hplt : r.1.payload_len < s.capacity := by omega
  have hLlt64 : (queueBytes (r :: q)).length < 2 ^ 64 :=
    lt_of_lt_of_le hLlt hrep.cap_le
  have hne : ¬ s.head = s.tail := by
    intro heq
    have h0 : (s.tail + (queueBytes (r :: q)).length) % 2 ^ 64
        = (s.tail + 0) % 2 ^ 64 := by
      rw [Nat.add_zero, Nat.mod_eq_of_lt hrep.tail_lt]
      exact hrep.head_eq.symm.trans heq
    have := add_mod_inj hLlt64 (by positivity) h0
    omega
  have hand : ∀ x : Nat, x &&& s.mask = x % s.capacity := by
    intro x; rw [hrep.mask_eq, hcap, Nat.and_pow_two_sub_one_eq_mod]
  have htail_pos : ∀ i : Nat, (s.tail % s.capacity + i) % s.capacity
      = (s.tail + i) % s.capacity := by
    intro i; rw [Nat.mod_add_mod]
  have hstart : s.tail % s.capacity < s.capacity := Nat.mod_lt _ hC0
  have hheader : decodeEventHeader
      (if s.capacity - s.tail % s.capacity ≥ EventHeader.SIZE then
        (s.buf.drop (s.tail % s.capacity)).take EventHeader.SIZE
      else
        (s.buf.drop (s.tail % s.capacity)).take (s.capacity - s.tail % s.capacity) ++
          s.buf.take (EventHeader.SIZE - (s.capacity - s.tail % s.capacity))) = r.1 := by
    simp only [ge_iff_le]
    rw [read_branch_eq_readWrapped hrep.buf_len hstart
      (show EventHeader.SIZE ≤ s.capacity by have := hrep.cap_ge; omega)]
    have hrw : readWrapped s.buf (s.tail % s.capacity) EventHeader.SIZE = r.1.bytes := by
      apply ext_getD
      · rw [length_readWrapped, EventHeader.length_bytes]; exact h16
      · intro i hi
        rw [length_readWrapped] at hi
        rw [getD_readWrapped _ _ _ _ hi, hrep.buf_len, htail_pos]
        have hiL : i < (queueBytes (r :: q)).length := by omega
        rw [hrep.content i hiL, queueBytes_cons,
          getD_append_left (by rw [henc]; omega)]
        exact getD_append_left (by rw [EventHeader.length_bytes]; omega)
    rw [hrw, decodeEventHeader_bytes hwfr.1]
  unfold Consumer.read_event
  rw [if_neg hne]
  dsimp only
  rw [hand s.tail, hheader]
  rw [hand (s.tail % s.capacity + EventHeader.SIZE), htail_pos]
  have hps_lt : (s.tail + EventHeader.SIZE) % s.capacity < s.capacity := Nat.mod_lt _ hC0
  have hpayload :
      (if r.1.payload_len ≤ s.capacity - (s.tail + EventHeader.SIZE) % s.capacity then
        (s.buf.drop ((s.tail + EventHeader.SIZE) % s.capacity)).take r.1.payload_len
      else
        (s.buf.drop ((s.tail + EventHeader.SIZE) % s.capacity)).take
            (s.capacity - (s.tail + EventHeader.SIZE) % s.capacity) ++
          s.buf.take
            (r.1.payload_len - (s.capacity - (s.tail + EventHeader.SIZE) % s.capacity)))
        = r.2 := by
    rw [read_branch_eq_readWrapped hrep.buf_len hps_lt (le_of_lt hplt)]
    apply ext_getD
    · rw [length_readWrapped, hplen]
    · intro i hi
      rw [length_readWrapped] at hi
      rw [getD_readWrapped _ _ _ _ hi, hrep.buf_len, Nat.mod_add_mod]
      have harr : s.tail + EventHeader.SIZE + i = s.tail + (EventHeader.SIZE + i) := by omega
      rw [harr]
      have hiL : EventHeader.SIZE + i < (queueBytes (r :: q)).length := by omega
      rw [hrep.content _ hiL, queueBytes_cons,
        show encodeRecord r ++ queueBytes q = r.1.bytes ++ (r.2 ++ queueBytes q) by
          simp [encodeRecord, List.append_assoc],
        show EventHeader.SIZE + i = r.1.bytes.length + i by rw [EventHeader.length_bytes, h16],
        getD_append_right]
      exact getD_append_left (by rw [hplen]; exact hi)
  rw [hpayload]

theorem SpscRepr.consumer_read_repr {s : SpscRingBuffer} {r : EventRec} {q : List EventRec}
    (hrep : SpscRepr s (r :: q)) :
    SpscRepr { s with tail := usizeWrappingAdd s.tail r.1.total_size } q := by
  obtain ⟨k, hk, hcap⟩ := hrep.cap_pow
  have hC0 : 0 < s.capacity := by have := hrep.cap_ge; omega
  have hwfr : recWF r := hrep.wf r (List.mem_cons_self r q)
  have henc : (encodeRecord r).length = r.1.total_size := length_encodeRecord hwfr.2
  have hL : (queueBytes (r :: q)).length = r.1.total_size + (queueBytes q).length := by
    rw [queueBytes_cons, List.length_append, henc]
  have hLlt := hrep.len_lt
  refine ⟨⟨k, hk, hcap⟩, hrep.cap_ge, hrep.mask_eq, hrep.buf_len, hrep.head_lt,
    Nat.mod_lt _ (by positivity), ?_, ?_, ?_, ?_⟩
  · show s.head =
      (usizeWrappingAdd s.tail r.1.total_size + (queueBytes q).length) % 2 ^ 64
    unfold usizeWrappingAdd
    rw [Nat.mod_add_mod, Nat.add_assoc, ← hL]
    exact hrep.head_eq
  · show (queueBytes q).length < s.capacity
    omega
  · intro i hi
    show s.buf.getD ((usizeWrappingAdd s.tail r.1.total_size + i) % s.capacity) 0 =
      (queueBytes q).getD i 0
    unfold usizeWrappingAdd
    rw [mod_dvd_add_mod _ _ hrep.dvd64, Nat.add_assoc]
    have hiL : r.1.total_size + i < (queueBytes (r :: q)).length := by omega
    rw [hrep.content _ hiL, queueBytes_cons,
      show r.1.total_size + i = (encodeRecord r).length + i by rw [henc],
      getD_append_right]
  · intro x hx
    exact hrep.wf x (List.mem_cons_of_mem _ hx)

/-- One scheduler step of the SPSC pair, modelled sequentially: either
the producer attempts `write_event` with a well-formed record, or the
consumer attempts `read_event`. -/
inductive SpscStep : SpscRingBuffer → SpscRingBuffer → Prop
  | write (s : SpscRingBuffer) (h : EventHeader) (p : List Nat) (hwf : recWF (h, p)) :
      SpscStep s (Producer.write_event s h p).2
  | read (s : SpscRingBuffer) : SpscStep s (Consumer.read_event s).2

theorem spscRepr_new {C : Nat} {s : SpscRingBuffer} (hC : C < 2 ^ 64)
    (hnew : SpscRingBuffer.new C = some s) : SpscRepr s [] := by
  unfold SpscRingBuffer.new at hnew
  split_ifs at hnew with hcond
  obtain ⟨hpow, hge⟩ := hcond
  obtain ⟨k, hk⟩ := isPowerOfTwo_iff.mp hpow
  have hk63 : k ≤ 63 := by
    by_contra hgt
    have : 2 ^ 64 ≤ 2 ^ k := Nat.pow_le_pow_right (by omega) (by omega)
    omega
  injection hnew with hnew
  subst hnew
  constructor
  · exact ⟨k, hk63, hk⟩
  · exact hge
  · rfl
  · show (List.replicate C 0).length = C
    simp
  · show (0:Nat) < 2 ^ 64
    positivity
  · show (0:Nat) < 2 ^ 64
    positivity
  · show (0:Nat) = (0 + (queueBytes []).length) % 2 ^ 64
    simp [queueBytes_nil]
  · show (queueBytes []).length < C
    simp only [queueBytes_nil, List.length_nil]
    omega
  · intro i hi
    simp [queueBytes_nil] at hi
  · intro r hr
    simp at hr

theorem spsc_step_repr {s s2 : SpscRingBuffer} (hstep : SpscStep s s2)
    {q : List EventRec} (hrep : SpscRepr s q) : ∃ q2, SpscRepr s2 q2 := by
  cases hstep with
  | write h p hwf =>
    by_cases hgt : h.total_size > s.capacity - usizeWrappingSub s.head s.tail - 1
    · rw [producer_write_fail hgt]
      exact ⟨q, hrep⟩
    · exact ⟨q ++ [(h, p)], (hrep.producer_write_repr hwf hgt).2⟩
  | read =>
    cases q with
    | nil =>
      rw [hrep.consumer_read_none]
      exact ⟨[], hrep⟩
    | cons r q1 =>
      rw [hrep.consumer_read_cons]
      exact ⟨q1, hrep.consumer_read_repr⟩

theorem spsc_reachable_repr {s0 s : SpscRingBuffer}
    (hreach : Relation.ReflTransGen SpscStep s0 s) {q0 : List EventRec}
    (hrep : SpscRepr s0 q0) : ∃ q, SpscRepr s q := by
  induction hreach with
  | refl => exact ⟨q0, hrep⟩
  | tail hab hbc ih =>
    obtain ⟨q, hq⟩ := ih
    exact spsc_step_repr hbc hq

theorem SpscRepr.head_sub_tail_le {s : SpscRingBuffer} {q : List EventRec}
    (hrep : SpscRepr s q) : usizeWrappingSub s.head s.tail ≤ s.capacity - 1 := by
  rw [hrep.spsc_used_eq]
  have := hrep.len_lt
  omega

/-! ## File header (src/storage/header.rs) -/

/-- Two's-complement `u64` image of an `i64` value. -/
def i64ToU64 (v : Int) : Nat := (v % 2 ^ 64).toNat

/-- The `i64` value read back from a `u64` bit pattern. -/
def u64ToI64 (v : Nat) : Int := if v < 2 ^ 63 then (v : Int) else (v : Int) - 2 ^ 64

/-- `FileHeader` from `src/storage/header.rs`, `repr(C)`: `magic: [u8;4]`,
`version: u32`, `created_at: i64`, `event_count: u64`, `write_offset: u64`,
`_reserved: [u8; 32]`. -/
structure FileHeader where
  magic : List Nat
  version : Nat
  created_at : Int
  event_count : Nat
  write_offset : Nat
  _reserved : List Nat
deriving DecidableEq, Repr

namespace FileHeader

/-- `FileHeader::SIZE = 64`. -/
def SIZE : Nat := 64

/-- `FileHeader::MAGIC = *b"EVIL"`. -/
def MAGIC : List Nat := [69, 86, 73, 76]

/-- `FileHeader::VERSION = 1`. -/
def VERSION : Nat := 1

/-- `FileHeader::new(created_at)`. -/
def new (created_at : Int) : FileHeader :=
  { magic := MAGIC, version := VERSION, created_at := created_at,
    event_count := 0, write_offset := SIZE, _reserved := List.replicate 32 0 }

/-- `FileHeader::validate()`: magic and version equality. -/
def validate (h : FileHeader) : Bool := h.magic == MAGIC && h.version == VERSION

end FileHeader

/-- The 64-byte little-endian image of a `FileHeader`, as moved by
`ptr::write_unaligned` on a little-endian host (spec section 3 fixes
this layout). -/
def encodeFileHeader (h : FileHeader) : List Nat :=
  h.magic ++ leBytes 4 h.version ++ leBytes 8 (i64ToU64 h.created_at) ++
    leBytes 8 h.event_count ++ leBytes 8 h.write_offset ++ h._reserved

/-- Decoding the first 64 bytes of a mapping into a `FileHeader`
(`ptr::read_unaligned(mmap_ptr as *const FileHeader)`). -/
def decodeFileHeader (bs : List Nat) : FileHeader :=
  { magic := bs.take 4
    version := leNat ((bs.drop 4).take 4)
    created_at := u64ToI64 (leNat ((bs.drop 8).take 8))
    event_count := leNat ((bs.drop 16).take 8)
    write_offset := leNat ((bs.drop 24).take 8)
    _reserved := (bs.drop 32).take 32 }

/-- The `event_count` field as currently stored in the mapped bytes. -/
def inFileEventCount (mmap : List Nat) : Nat := leNat ((mmap.drop 16).take 8)

/-- The `write_offset` field as currently stored in the mapped bytes. -/
def inFileWriteOffset (mmap : List Nat) : Nat := leNat ((mmap.drop 24).take 8)

/-! ## Mmap writer (src/storage/mmap_writer.rs) -/

/-- `MmapWriter` from `src/storage/mmap_writer.rs`: the mapped file
bytes (`mmap_len` is `mmap.length`) and the internal `write_offset`.
The file descriptor and the raw pointer play no role at byte level. -/
structure MmapWriter where
  mmap : List Nat
  write_offset : Nat
deriving DecidableEq, Repr

namespace MmapWriter

/-- `MmapWriter::write_file_header`. -/
def write_file_header (w : MmapWriter) (h : FileHeader) : MmapWriter :=
  { w with mmap := writeBytesAt w.mmap 0 (encodeFileHeader h) }

/-- `MmapWriter::create(path, capacity)`: clamps `capacity` up to at
least 4096, truncates the file to that many zero bytes, maps it, sets
`write_offset = FileHeader::SIZE` and stamps a fresh header (`now` is
the clock value read inside `create`). -/
def create (capacity : Nat) (now : Int) : MmapWriter :=
  let capacity := max capacity 4096
  let w : MmapWriter :=
    { mmap := List.replicate capacity 0, write_offset := FileHeader.SIZE }
  w.write_file_header (FileHeader.new now)

/-- `MmapWriter::available()`: `mmap_len - write_offset`. -/
def available (w : MmapWriter) : Nat := w.mmap.length - w.write_offset

/-- `MmapWriter::update_file_header`: increments the in-file
`event_count` (a `u64`, so the stored bytes wrap modulo `2^64`) and
stores the current `write_offset` into the in-file header. -/
def update_file_header (w : MmapWriter) : MmapWriter :=
  let ec := inFileEventCount w.mmap
  { w with
      mmap := writeBytesAt (writeBytesAt w.mmap 16 (leBytes 8 (ec + 1)))
        24 (leBytes 8 w.write_offset) }

/-- `MmapWriter::write_event` from `src/storage/mmap_writer.rs`
(lines 104–123): guard, contiguous header + payload store, offset
advance, header update. -/
def write_event (w : MmapWriter) (header : EventHeader) (payload : List Nat) :
    Bool × MmapWriter :=
  let total_size := header.total_size
  if total_size > w.available then (false, w)
  else
    let w1 : MmapWriter :=
      { w with
          mmap := writeBytesAt (writeBytesAt w.mmap w.write_offset header.bytes)
            (w.write_offset + EventHeader.SIZE) payload }
    let w2 : MmapWriter := { w1 with write_offset := w.write_offset + total_size }
    (true, w2.update_file_header)

/-- `MmapWriter::file_header()`: decode the mapped header bytes. -/
def file_header (w : MmapWriter) : FileHeader := decodeFileHeader w.mmap

end MmapWriter

/-! ## Mmap reader (src/storage/mmap_reader.rs) -/

/-- The reader's error kind (`std::io::ErrorKind::InvalidData`). -/
inductive IoErrorKind where
  | InvalidData
deriving DecidableEq, Repr

/-- `MmapReader` from `src/storage/mmap_reader.rs`: the read-only mapped
bytes and the `FileHeader` cached by value at open time. -/
structure MmapReader where
  mmap : List Nat
  file_header : FileHeader
deriving DecidableEq, Repr

namespace MmapReader

/-- `MmapReader::open(path)`: rejects files shorter than 64 bytes, then
decodes and validates the header, caching it by value.  The file
content is the byte list; `File::open`/`mmap` syscall failures are
outside the byte-level model. -/
def openFile (file : List Nat) : Except (IoErrorKind × String) MmapReader :=
  if file.length < FileHeader.SIZE then
    .error (.InvalidData, "File too small for header")
  else
    let file_header := decodeFileHeader file
    if !file_header.validate then
      .error (.InvalidData, "Invalid file header")
    else
      .ok { mmap := file, file_header := file_header }

/-- `MmapReader::event_count()` (served from the cached header). -/
def event_count (r : MmapReader) : Nat := r.file_header.event_count

/-- `MmapReader::created_at()` (served from the cached header). -/
def created_at (r : MmapReader) : Int := r.file_header.created_at

end MmapReader

/-- The `(offset, header)` pairs visited by `MmapReader::replay` — and
equally by `EventIterator::next` — between `offset` and `endOff`.  Each
visited pair `(o, h)` is passed to the callback as an `EventView` whose
payload slice is built by `slice::from_raw_parts(mmap_ptr + o + 16,
h.payload_len)` with no bounds check, i.e. it spans the byte range
`[o + 16, o + 16 + h.payload_len)` of the address space regardless of
`write_offset` or the mapping length. -/
def replayOffsets (mmap : List Nat) (offset endOff : Nat) : List (Nat × EventHeader) :=
  if h : offset < endOff then
    (offset, decodeEventHeader ((mmap.drop offset).take EventHeader.SIZE)) ::
      replayOffsets mmap
        (offset + (decodeEventHeader ((mmap.drop offset).take EventHeader.SIZE)).total_size)
        endOff
  else []
termination_by endOff - offset
decreasing_by
  have h16 := (decodeEventHeader ((mmap.drop offset).take EventHeader.SIZE)).total_size_ge
  omega

/-- `MmapReader::replay(callback)` returns the number of records
visited; the iteration starts at `FileHeader::SIZE` and runs while
`offset < write_offset` (the cached header field). -/
def MmapReader.replay (r : MmapReader) : Nat :=
  (replayOffsets r.mmap FileHeader.SIZE r.file_header.write_offset).length

/-! ## Segment helpers for the mapped file -/

theorem getD_writeBytesAt_out {bs buf : List Nat} {pos j : Nat}
    (hj : j < buf.length) (hout : j < pos ∨ pos + bs.length ≤ j) :
    (writeBytesAt buf pos bs).getD j 0 = buf.getD j 0 := by
  rw [getD_writeBytesAt _ _ _ _ hj, if_neg (by omega)]

theorem getD_writeBytesAt_in {bs buf : List Nat} {pos j : Nat}
    (hj : j < buf.length) (h1 : pos ≤ j) (h2 : j < pos + bs.length) :
    (writeBytesAt buf pos bs).getD j 0 = bs.getD (j - pos) 0 := by
  rw [getD_writeBytesAt _ _ _ _ hj, if_pos ⟨h1, h2⟩]

theorem getD_map_range {f : Nat → Nat} {n i : Nat} (hi : i < n) :
    ((List.range n).map f).getD i 0 = f i := by
  simp [List.getD, List.getElem?_map, List.getElem?_range hi]

theorem segment_eq {l : List Nat} {s : Nat} {bs : List Nat}
    (hlen : s + bs.length ≤ l.length)
    (h : ∀ i, i < bs.length → l.getD (s + i) 0 = bs.getD i 0) :
    (l.drop s).take bs.length = bs := by
  rw [take_drop_eq_map_range _ _ _ hlen]
  apply ext_getD
  · simp
  · intro i hi
    simp only [List.length_map, List.length_range] at hi
    rw [getD_map_range hi, h i hi]

theorem getD_of_take_drop {l : List Nat} {s n : Nat} {bs : List Nat}
    (hseg : (l.drop s).take n = bs) {i : Nat} (hi : i < n) :
    l.getD (s + i) 0 = bs.getD i 0 := by
  rw [← hseg, getD_take _ _ _ hi, getD_drop]

theorem queueBytes_len_ge (recs : List EventRec) :
    16 * recs.length ≤ (queueBytes recs).length := by
  induction recs with
  | nil => simp [queueBytes_nil]
  | cons r q ih =>
    rw [queueBytes_cons, List.length_append]
    have : (encodeRecord r).length = 16 + r.2.length := by
      simp [encodeRecord, EventHeader.length_bytes]
    simp only [List.length_cons]
    omega

theorem encodeFileHeader_segments {h : FileHeader}
    (hm : h.magic.length = 4) (hr : h._reserved.length = 32) :
    (encodeFileHeader h).length = 64 ∧
    ((encodeFileHeader h).drop 16).take 8 = leBytes 8 h.event_count ∧
    ((encodeFileHeader h).drop 24).take 8 = leBytes 8 h.write_offset := by
  have hb : encodeFileHeader h = h.magic ++ (leBytes 4 h.version ++
      (leBytes 8 (i64ToU64 h.created_at) ++ (leBytes 8 h.event_count ++
      (leBytes 8 h.write_offset ++ h._reserved)))) := by
    simp [encodeFileHeader]
  refine ⟨?_, ?_, ?_⟩
  · rw [hb]
    simp [length_leBytes, hm, hr]
  · have hd4 : (encodeFileHeader h).drop 4 = leBytes 4 h.version ++
        (leBytes 8 (i64ToU64 h.created_at) ++ (leBytes 8 h.event_count ++
        (leBytes 8 h.write_offset ++ h._reserved))) := by
      rw [hb]; exact drop_append_of_length_eq hm
    have hd8 : (encodeFileHeader h).drop 8 = leBytes 8 (i64ToU64 h.created_at) ++
        (leBytes 8 h.event_count ++ (leBytes 8 h.write_offset ++ h._reserved)) := by
      rw [show (8:Nat) = 4 + 4 from rfl, ← List.drop_drop, hd4]
      exact drop_append_of_length_eq (length_leBytes 4 _)
    have hd16 : (encodeFileHeader h).drop 16 = leBytes 8 h.event_count ++
        (leBytes 8 h.write_offset ++ h._reserved) := by
      rw [show (16:Nat) = 8 + 8 from rfl, ← List.drop_drop, hd8]
      exact drop_append_of_length_eq (length_leBytes 8 _)
    rw [hd16]
    exact take_append_of_length_eq (length_leBytes 8 _)
  · have hd4 : (encodeFileHeader h).drop 4 = leBytes 4 h.version ++
        (leBytes 8 (i64ToU64 h.created_at) ++ (leBytes 8 h.event_count ++
        (leBytes 8 h.write_offset ++ h._reserved))) := by
      rw [hb]; exact drop_append_of_length_eq hm
    have hd8 : (encodeFileHeader h).drop 8 = leBytes 8 (i64ToU64 h.created_at) ++
        (leBytes 8 h.event_count ++ (leBytes 8 h.write_offset ++ h._reserved)) := by
      rw [show (8:Nat) = 4 + 4 from rfl, ← List.drop_drop, hd4]
      exact drop_append_of_length_eq (length_leBytes 4 _)
    have hd16 : (encodeFileHeader h).drop 16 = leBytes 8 h.event_count ++
        (leBytes 8 h.write_offset ++ h._reserved) := by
      rw [show (16:Nat) = 8 + 8 from rfl, ← List.drop_drop, hd8]
      exact drop_append_of_length_eq (length_leBytes 8 _)
    have hd24 : (encodeFileHeader h).drop 24 = leBytes 8 h.write_offset ++ h._reserved := by
      rw [show (24:Nat) = 16 + 8 from rfl, ← List.drop_drop, hd16]
      exact drop_append_of_length_eq (length_leBytes 8 _)
    rw [hd24]
    exact take_append_of_length_eq (length_leBytes 8 _)

theorem take_drop_writeBytesAt_out {l : List Nat} {pos : Nat} {bs : List Nat} {s n : Nat}
    (hdis : s + n ≤ pos ∨ pos + bs.length ≤ s) :
    ((writeBytesAt l pos bs).drop s).take n = (l.drop s).take n := by
  apply ext_getD
  · simp [length_writeBytesAt]
  · intro i hi
    simp only [List.length_take, List.length_drop, length_writeBytesAt] at hi
    have hilt : i < n := lt_of_lt_of_le hi (min_le_left _ _)
    have hsl : s + i < l.length := by
      have := lt_of_lt_of_le hi (min_le_right _ _)
      omega
    rw [getD_take _ _ _ hilt, getD_drop, getD_take _ _ _ hilt, getD_drop,
      getD_writeBytesAt_out hsl (by omega)]

theorem mmap_write_event_fail {w : MmapWriter} {h : EventHeader} {p : List Nat}
    (hgt : h.total_size > w.available) :
    w.write_event h p = (false, w) := by
  unfold MmapWriter.write_event
  rw [if_pos hgt]

theorem segment_eq_len {l : List Nat} {s n : Nat} {bs : List Nat}
    (hn : bs.length = n) (hlen : s + n ≤ l.length)
    (h : ∀ i, i < n → l.getD (s + i) 0 = bs.getD i 0) :
    (l.drop s).take n = bs := by
  subst hn
  exact segment_eq hlen h

set_option maxHeartbeats 1000000 in
theorem mmap_write_event_ok_spec {w : MmapWriter} {h : EventHeader} {p : List Nat}
    (hpl : p.length = h.payload_len) (hwo : 64 ≤ w.write_offset)
    (hle : ¬ h.total_size > w.available) :
    (w.write_event h p).1 = true ∧
    (w.write_event h p).2.write_offset = w.write_offset + h.total_size ∧
    (w.write_event h p).2.mmap.length = w.mmap.length ∧
    ((w.write_event h p).2.mmap.drop w.write_offset).take 16 = h.bytes ∧
    ((w.write_event h p).2.mmap.drop (w.write_offset + 16)).take h.payload_len = p ∧
    inFileEventCount (w.write_event h p).2.mmap = (inFileEventCount w.mmap + 1) % 2 ^ 64 ∧
    ((w.write_event h p).2.mmap.drop 24).take 8 =
      leBytes 8 (w.write_offset + h.total_size) ∧
    (∀ j, j < w.mmap.length → 32 ≤ j → j < w.write_offset →
      (w.write_event h p).2.mmap.getD j 0 = w.mmap.getD j 0) := by
  have h16 : (EventHeader.SIZE : Nat) = 16 := rfl
  have htt : h.total_size = 16 + h.payload_len := rfl
  have hbl : h.bytes.length = 16 := EventHeader.length_bytes h
  have havail : w.available = w.mmap.length - w.write_offset := rfl
  have hfit : w.write_offset + h.total_size ≤ w.mmap.length := by
    rw [havail] at hle
    omega
  unfold MmapWriter.write_event MmapWriter.update_file_header
  rw [if_neg hle]
  dsimp only
  set m1 := writeBytesAt (writeBytesAt w.mmap w.write_offset h.bytes)
    (w.write_offset + EventHeader.SIZE) p with hm1
  have hm1len : m1.length = w.mmap.length := by
    rw [hm1, length_writeBytesAt, length_writeBytesAt]
  set ec := inFileEventCount m1 with hec
  set m2 := writeBytesAt (writeBytesAt m1 16 (leBytes 8 (ec + 1)))
    24 (leBytes 8 (w.write_offset + h.total_size)) with hm2
  have hm2len : m2.length = w.mmap.length := by
    rw [hm2, length_writeBytesAt, length_writeBytesAt, hm1len]
  have hm1_getD_header : ∀ i, i < 16 → m1.getD (w.write_offset + i) 0 = h.bytes.getD i 0 := by
    intro i hi
    rw [hm1,
      @getD_writeBytesAt_out p (writeBytesAt w.mmap w.write_offset h.bytes)
        (w.write_offset + EventHeader.SIZE) (w.write_offset + i)
        (by rw [length_writeBytesAt]; omega) (by omega),
      @getD_writeBytesAt_in h.bytes w.mmap w.write_offset (w.write_offset + i)
        (by omega) (by omega) (by rw [hbl]; omega),
      show w.write_offset + i - w.write_offset = i by omega]
  have hm1_getD_payload : ∀ i, i < p.length →
      m1.getD (w.write_offset + 16 + i) 0 = p.getD i 0 := by
    intro i hi
    rw [hm1,
      @getD_writeBytesAt_in p (writeBytesAt w.mmap w.write_offset h.bytes)
        (w.write_offset + EventHeader.SIZE) (w.write_offset + 16 + i)
        (by rw [length_writeBytesAt]; omega) (by omega) (by omega),
      show w.write_offset + 16 + i - (w.write_offset + EventHeader.SIZE) = i by omega]
  have hm2_getD_rec : ∀ j, 32 ≤ j → j < w.mmap.length → m2.getD j 0 = m1.getD j 0 := by
    intro j hj1 hj2
    rw [hm2,
      @getD_writeBytesAt_out (leBytes 8 (w.write_offset + h.total_size))
        (writeBytesAt m1 16 (leBytes 8 (ec + 1))) 24 j
        (by rw [length_writeBytesAt, hm1len]; omega) (by rw [length_leBytes]; omega),
      @getD_writeBytesAt_out (leBytes 8 (ec + 1)) m1 16 j
        (by rw [hm1len]; omega) (by rw [length_leBytes]; omega)]
  refine ⟨rfl, rfl, hm2len, ?_, ?_, ?_, ?_, ?_⟩
  · refine segment_eq_len hbl (by rw [hm2len]; omega) ?_
    intro i hi
    rw [hm2_getD_rec _ (by omega) (by omega), hm1_getD_header i hi]
  · refine segment_eq_len hpl (by rw [hm2len]; omega) ?_
    intro i hi
    rw [hm2_getD_rec _ (by omega) (by omega), hm1_getD_payload i (by omega)]
  · have hseg : (m2.drop 16).take 8 = leBytes 8 (ec + 1) := by
      rw [hm2,
        @take_drop_writeBytesAt_out (writeBytesAt m1 16 (leBytes 8 (ec + 1))) 24
          (leBytes 8 (w.write_offset + h.total_size)) 16 8 (Or.inl (by omega))]
      refine segment_eq_len (length_leBytes _ _) ?_ ?_
      · rw [length_writeBytesAt, hm1len]
        omega
      · intro i hi
        rw [@getD_writeBytesAt_in (leBytes 8 (ec + 1)) m1 16 (16 + i)
            (by rw [hm1len]; omega) (by omega) (by rw [length_leBytes]; omega),
          show 16 + i - 16 = i by omega]
    have hecold : ec = inFileEventCount w.mmap := by
      rw [hec, hm1]
      unfold inFileEventCount
      rw [@take_drop_writeBytesAt_out (writeBytesAt w.mmap w.write_offset h.bytes)
          (w.write_offset + EventHeader.SIZE) p 16 8 (Or.inl (by omega)),
        @take_drop_writeBytesAt_out w.mmap w.write_offset h.bytes 16 8
          (Or.inl (by omega))]
    show leNat ((m2.drop 16).take 8) = (inFileEventCount w.mmap + 1) % 2 ^ 64
    rw [hseg, leNat_leBytes, hecold, show (256:Nat) ^ 8 = 2 ^ 64 by norm_num]
  · rw [hm2]
    refine segment_eq_len (length_leBytes _ _) ?_ ?_
    · rw [length_writeBytesAt, length_writeBytesAt, hm1len]
      omega
    · intro i hi
      rw [@getD_writeBytesAt_in (leBytes 8 (w.write_offset + h.total_size))
          (writeBytesAt m1 16 (leBytes 8 (ec + 1))) 24 (24 + i)
          (by rw [length_writeBytesAt, hm1len]; omega) (by omega)
          (by rw [length_leBytes]; omega),
        show 24 + i - 24 = i by omega]
  · intro j hjlen hj32 hjwo
    rw [hm2_getD_rec _ hj32 hjlen, hm1,
      @getD_writeBytesAt_out p (writeBytesAt w.mmap w.write_offset h.bytes)
        (w.write_offset + EventHeader.SIZE) j (by rw [length_writeBytesAt]; omega)
        (by omega),
      @getD_writeBytesAt_out h.bytes w.mmap w.write_offset j (by omega) (by omega)]

theorem take_drop_writeBytesAt_inside {l : List Nat} {pos : Nat} {bs : List Nat} {s n : Nat}
    (h1 : pos ≤ s) (h2 : s + n ≤ pos + bs.length) (h3 : s + n ≤ l.length) :
    ((writeBytesAt l pos bs).drop s).take n = (bs.drop (s - pos)).take n := by
  apply ext_getD
  · simp only [List.length_take, List.length_drop, length_writeBytesAt]
    omega
  · intro i hi
    simp only [List.length_take, List.length_drop, length_writeBytesAt] at hi
    have hilt : i < n := lt_of_lt_of_le hi (min_le_left _ _)
    rw [getD_take _ _ _ hilt, getD_drop, getD_take _ _ _ hilt, getD_drop,
      getD_writeBytesAt_in (by omega) (by omega) (by omega)]
    congr 1
    omega

/-- Representation invariant for the mmap writer: the file region
`[64, write_offset)` holds exactly the byte images of the records
written so far, and the in-file header fields track their count and the
current offset. -/
structure WriterInv (w : MmapWriter) (recs : List EventRec) : Prop where
  wo_eq : w.write_offset = 64 + (queueBytes recs).length
  wo_le : w.write_offset ≤ w.mmap.length
  len_lt : w.mmap.length < 2 ^ 64
  ec_eq : inFileEventCount w.mmap = recs.length
  fwo_eq : inFileWriteOffset w.mmap = w.write_offset
  content : ∀ i, i < (queueBytes recs).length →
    w.mmap.getD (64 + i) 0 = (queueBytes recs).getD i 0
  wf : ∀ r ∈ recs, recWF r

theorem writerInv_create (capacity : Nat) (now : Int) (hcap : capacity < 2 ^ 64) :
    WriterInv (MmapWriter.create capacity now) [] := by
  have hm : (FileHeader.new now).magic.length = 4 := rfl
  have hr : (FileHeader.new now)._reserved.length = 32 := by
    show (List.replicate 32 0).length = 32
    simp
  obtain ⟨hlen64, hecseg, hwoseg⟩ := encodeFileHeader_segments hm hr
  have hN : 4096 ≤ max capacity 4096 := le_max_right _ _
  have hNlt : max capacity 4096 < 2 ^ 64 := by
    have h4096 : (4096:Nat) < 2 ^ 64 := by norm_num
    omega
  unfold MmapWriter.create MmapWriter.write_file_header
  dsimp only
  have hmmaplen :
      (writeBytesAt (List.replicate (max capacity 4096) 0) 0
        (encodeFileHeader (FileHeader.new now))).length = max capacity 4096 := by
    rw [length_writeBytesAt, List.length_replicate]
  have hseg16 :
      ((writeBytesAt (List.replicate (max capacity 4096) 0) 0
        (encodeFileHeader (FileHeader.new now))).drop 16).take 8 = leBytes 8 0 := by
    rw [take_drop_writeBytesAt_inside (by omega) (by rw [hlen64]; omega)
      (by rw [List.length_replicate]; omega)]
    simpa using hecseg
  have hseg24 :
      ((writeBytesAt (List.replicate (max capacity 4096) 0) 0
        (encodeFileHeader (FileHeader.new now))).drop 24).take 8 = leBytes 8 64 := by
    rw [take_drop_writeBytesAt_inside (by omega) (by rw [hlen64]; omega)
      (by rw [List.length_replicate]; omega)]
    simpa using hwoseg
  constructor
  · show (FileHeader.SIZE : Nat) = 64 + (queueBytes []).length
    simp [queueBytes_nil, FileHeader.SIZE]
  · show (FileHeader.SIZE : Nat) ≤ _
    rw [hmmaplen]
    show 64 ≤ _
    omega
  · rw [hmmaplen]
    exact hNlt
  · unfold inFileEventCount
    rw [hseg16, leNat_leBytes_of_lt (by positivity)]
    rfl
  · unfold inFileWriteOffset
    rw [hseg24, leNat_leBytes_of_lt (by norm_num)]
    rfl
  · intro i hi
    simp [queueBytes_nil] at hi
  · intro r hr
    simp at hr

theorem WriterInv.write_step {w : MmapWriter} {recs : List EventRec} {h : EventHeader}
    {p : List Nat} (hinv : WriterInv w recs) (hwf : recWF (h, p)) :
    ((w.write_event h p).1 = false → (w.write_event h p).2 = w) ∧
    ((w.write_event h p).1 = true → WriterInv (w.write_event h p).2 (recs ++ [(h, p)])) := by
  have hwo64 : 64 ≤ w.write_offset := by rw [hinv.wo_eq]; omega
  by_cases hgt : h.total_size > w.available
  · rw [mmap_write_event_fail hgt]
    refine ⟨fun _ => rfl, fun hfalse => ?_⟩
    simp at hfalse
  · have hpl : p.length = h.payload_len := hwf.2
    obtain ⟨hok, hwo2, hlen2, hhdr, hpay, hec2, hwoseg, huntouched⟩ :=
      mmap_write_event_ok_spec hpl hwo64 hgt
    have havail : w.available = w.mmap.length - w.write_offset := rfl
    have hfit : w.write_offset + h.total_size ≤ w.mmap.length := by
      rw [havail] at hgt
      have htge := h.total_size_ge
      omega
    have henc : (encodeRecord (h, p)).length = h.total_size := by
      simpa using @length_encodeRecord (h, p) hwf.2
    have hqlen : (queueBytes (recs ++ [(h, p)])).length =
        (queueBytes recs).length + h.total_size := by
      rw [queueBytes_snoc, List.length_append, henc]
    have hcount := queueBytes_len_ge recs
    have htt : h.total_size = 16 + h.payload_len := rfl
    refine ⟨fun hff => (by rw [hok] at hff; cases hff), fun _ => ?_⟩
    constructor
    · rw [hwo2, hqlen, hinv.wo_eq]
      omega
    · rw [hwo2, hlen2]
      exact hfit
    · rw [hlen2]
      exact hinv.len_lt
    · rw [hec2, hinv.ec_eq, List.length_append]
      have hnlt : recs.length + 1 < 2 ^ 64 := by
        have := hinv.wo_eq
        have := hinv.wo_le
        have := hinv.len_lt
        omega
      rw [Nat.mod_eq_of_lt hnlt]
      simp
    · show inFileWriteOffset (w.write_event h p).2.mmap = (w.write_event h p).2.write_offset
      unfold inFileWriteOffset
      rw [hwoseg, leNat_leBytes, hwo2,
        show (256:Nat) ^ 8 = 2 ^ 64 by norm_num,
        Nat.mod_eq_of_lt (by have := hinv.len_lt; omega)]
    · rw [hqlen]
      intro i hi
      by_cases hiL : i < (queueBytes recs).length
      · have hpos : 64 + i < w.write_offset := by rw [hinv.wo_eq]; omega
        rw [huntouched (64 + i) (by omega) (by omega) hpos, hinv.content i hiL,
          queueBytes_snoc, getD_append_left hiL]
      · have hidec : i = (queueBytes recs).length + (i - (queueBytes recs).length) := by omega
        set j := i - (queueBytes recs).length with hj
        have hjlt : j < h.total_size := by omega
        rw [queueBytes_snoc]
        conv_rhs => rw [hidec]
        rw [getD_append_right]
        by_cases hj16 : j < 16
        · have hposidx : 64 + i = w.write_offset + j := by
            rw [hinv.wo_eq]; omega
          rw [hposidx, getD_of_take_drop hhdr hj16]
          show _ = (h.bytes ++ p).getD j 0
          rw [getD_append_left (by rw [EventHeader.length_bytes]; omega)]
        · have hr2 : (h.bytes ++ p).getD j 0 = p.getD (j - 16) 0 := by
            conv_lhs => rw [show j = h.bytes.length + (j - 16) by
              rw [EventHeader.length_bytes]; omega]
            rw [getD_append_right]
          have hposidx : 64 + i = w.write_offset + 16 + (j - 16) := by
            rw [hinv.wo_eq]; omega
          rw [hposidx, getD_of_take_drop hpay (by omega)]
          show _ = (h.bytes ++ p).getD j 0
          rw [hr2]
    · intro r hr
      rcases List.mem_append.mp hr with hr1 | hr2
      · exact hinv.wf r hr1
      · rcases List.mem_singleton.mp hr2 with rfl
        exact hwf

/-- Run a list of records through `MmapWriter::write_event`, returning
the final writer and the successfully written records in order. -/
def runWrites : MmapWriter → List EventRec → MmapWriter × List EventRec
  | w, [] => (w, [])
  | w, (h, p) :: rest =>
    let res := w.write_event h p
    if res.1 then
      let out := runWrites res.2 rest
      (out.1, (h, p) :: out.2)
    else
      runWrites res.2 rest

theorem runWrites_inv : ∀ (recs : List EventRec) {w : MmapWriter} {done : List EventRec},
    WriterInv w done → (∀ r ∈ recs, recWF r) →
    WriterInv (runWrites w recs).1 (done ++ (runWrites w recs).2) := by
  intro recs
  induction recs with
  | nil =>
    intro w done hinv _
    simpa [runWrites] using hinv
  | cons r rest ih =>
    intro w done hinv hwf
    obtain ⟨h, p⟩ := r
    have hwfr : recWF (h, p) := hwf _ (List.mem_cons_self _ _)
    have hwfrest : ∀ x ∈ rest, recWF x := fun x hx => hwf x (List.mem_cons_of_mem _ hx)
    obtain ⟨hfail, hok⟩ := hinv.write_step hwfr
    by_cases hb : (w.write_event h p).1 = true
    · have hinv2 := hok hb
      have := ih hinv2 hwfrest
      simp only [runWrites, hb, if_true]
      simpa [List.append_assoc] using this
    · have hb2 : (w.write_event h p).1 = false := by
        cases hres : (w.write_event h p).1
        · rfl
        · exact absurd hres hb
      have heq := hfail hb2
      simp only [runWrites, hb2, if_false, Bool.false_eq_true, heq]
      exact ih hinv hwfrest

/-! ## Claim theorems -/

/-- C1: for every sequence of `write_event`/`read_event` calls on a
single-threaded ring built by `RingBuffer::new` (each write passing a
payload slice of exactly `payload_len` bytes), the k-th successful read
returns the k-th successful write: the read headers' 16-byte images and
payloads agree position-wise with those of the first `k` successful
writes.  The generic statement covers every wrap position (record
contiguous, payload split, header split) and `payload_len = 0`. -/
theorem ringlog_C1_fifo_roundtrip (C : Nat) (ops : List RingOp) (rb : RingBuffer)
    (hC : C < 2 ^ 64) (hnew : RingBuffer.new C = .ok rb) (hwf : opsWF ops) :
    (runOps rb ops).2.2.map (fun r => (r.1.bytes, r.2)) =
      ((runOps rb ops).2.1.take (runOps rb ops).2.2.length).map
        (fun r => (r.1.bytes, r.2)) := by
  obtain ⟨q2, _, heq⟩ := runOps_fifo (ringRepr_new hC hnew) hwf
  rw [List.nil_append] at heq
  rw [heq, List.take_left]

/-- Witness for C1 at capacity 32 with one write of an 8-byte payload
followed by one read. -/
theorem ringlog_C1_witness :
    (runOps (RingBuffer.mk (List.replicate 32 0) 32 0 0)
        [RingOp.write (EventHeader.new 1000 1 8) [1, 2, 3, 4, 5, 6, 7, 8],
         RingOp.read]).2.2.map (fun r => (r.1.bytes, r.2)) =
      ((runOps (RingBuffer.mk (List.replicate 32 0) 32 0 0)
        [RingOp.write (EventHeader.new 1000 1 8) [1, 2, 3, 4, 5, 6, 7, 8],
         RingOp.read]).2.1.take
        (runOps (RingBuffer.mk (List.replicate 32 0) 32 0 0)
          [RingOp.write (EventHeader.new 1000 1 8) [1, 2, 3, 4, 5, 6, 7, 8],
           RingOp.read]).2.2.length).map (fun r => (r.1.bytes, r.2)) :=
  ringlog_C1_fifo_roundtrip 32 _ _ (by decide) (by rfl) (by decide)

/-- C5: starting from `SpscRingBuffer::new(C)` (a `usize` capacity), in
every finite sequential interleaving of producer writes and consumer
reads the monotone counters satisfy `head - tail ≤ C - 1` under `usize`
wrapping subtraction, across counter wrap-around. -/
theorem ringlog_C5_spsc_counter_invariant (C : Nat) (s0 s : SpscRingBuffer)
    (hC : C < 2 ^ 64) (hnew : SpscRingBuffer.new C = some s0)
    (hreach : Relation.ReflTransGen SpscStep s0 s) :
    usizeWrappingSub s.head s.tail ≤ s.capacity - 1 := by
  obtain ⟨q, hq⟩ := spsc_reachable_repr hreach (spscRepr_new hC hnew)
  exact hq.head_sub_tail_le

/-- Witness for C5 at capacity 64 and the initial state. -/
theorem ringlog_C5_witness :
    usizeWrappingSub (SpscRingBuffer.mk (List.replicate 64 0) 64 63 0 0).head
      (SpscRingBuffer.mk (List.replicate 64 0) 64 63 0 0).tail ≤
      (SpscRingBuffer.mk (List.replicate 64 0) 64 63 0 0).capacity - 1 :=
  ringlog_C5_spsc_counter_invariant 64 _ _ (by decide) (by rfl)
    Relation.ReflTransGen.refl

/-- C6: a single-threaded ring write whose total size exceeds
`available` fails with `NotEnoughSpace{required, available}` and leaves
the state untouched; concretely, on a fresh capacity-128 ring the first
80-byte write succeeds and the second fails with
`NotEnoughSpace{80, 47}`. -/
theorem ringlog_C6_write_full_rejected :
    (∀ (rb : RingBuffer) (h : EventHeader) (p : List Nat),
      h.total_size > rb.available →
      rb.write_event h p = (.error (.NotEnoughSpace h.total_size rb.available), rb)) ∧
    (∃ rb1 : RingBuffer,
      RingBuffer.new 128 =
        .ok (RingBuffer.mk (List.replicate 128 0) 128 0 0) ∧
      (RingBuffer.mk (List.replicate 128 0) 128 0 0).write_event
          (EventHeader.new 1 1 64) (List.replicate 64 171) = (.ok (), rb1) ∧
      rb1.write_event (EventHeader.new 2 1 64) (List.replicate 64 171) =
        (.error (.NotEnoughSpace 80 47), rb1)) := by
  refine ⟨fun rb h p hgt => write_event_fail hgt,
    ((RingBuffer.mk (List.replicate 128 0) 128 0 0).write_event
      (EventHeader.new 1 1 64) (List.replicate 64 171)).2, ?_, ?_, ?_⟩
  · rfl
  · rfl
  · rfl

/-- Witness for C6's guarded conjunct: a 216-byte record offered to a
fresh capacity-128 ring. -/
theorem ringlog_C6_witness :
    (EventHeader.new 0 0 200).total_size >
      (RingBuffer.mk (List.replicate 128 0) 128 0 0).available ∧
    (RingBuffer.mk (List.replicate 128 0) 128 0 0).write_event
        (EventHeader.new 0 0 200) [] =
      (.error (.NotEnoughSpace (EventHeader.new 0 0 200).total_size
          (RingBuffer.mk (List.replicate 128 0) 128 0 0).available),
        RingBuffer.mk (List.replicate 128 0) 128 0 0) :=
  ⟨by decide, ringlog_C6_write_full_rejected.1 _ _ _ (by decide)⟩

/-- C7: `Producer::write_event` returns `false` — with the state
untouched, so never a partial write — exactly when
`total_size > capacity - (head - tail) - 1` (wrapping subtraction on
the counters), and `Consumer::read_event` returns `none` with the state
untouched exactly when `head == tail`.  Stated for every state of the
model; on states satisfying the C5 invariant the `Nat` truncated outer
subtraction agrees with the Rust expression. -/
theorem ringlog_C7_spsc_failure_semantics (s : SpscRingBuffer) (h : EventHeader)
    (p : List Nat) :
    ((Producer.write_event s h p).1 = false ↔
      h.total_size > s.capacity - usizeWrappingSub s.head s.tail - 1) ∧
    ((Producer.write_event s h p).1 = false → (Producer.write_event s h p).2 = s) ∧
    ((Consumer.read_event s).1 = none ↔ s.head = s.tail) ∧
    ((Consumer.read_event s).1 = none → (Consumer.read_event s).2 = s) := by
  refine ⟨?_, ?_, ?_, ?_⟩
  · unfold Producer.write_event
    dsimp only
    by_cases hgt : h.total_size > s.capacity - usizeWrappingSub s.head s.tail - 1
    · rw [if_pos hgt]
      simpa using hgt
    · rw [if_neg hgt]
      split_ifs <;> simpa using hgt
  · intro hff
    unfold Producer.write_event at hff ⊢
    dsimp only at hff ⊢
    split_ifs at hff ⊢
    · rfl
  · unfold Consumer.read_event
    dsimp only
    by_cases he : s.head = s.tail
    · rw [if_pos he]
      simpa using he
    · rw [if_neg he]
      split_ifs <;> simpa using he
  · intro hff
    unfold Consumer.read_event at hff ⊢
    dsimp only at hff ⊢
    split_ifs at hff ⊢
    · rfl

/-- Witness for C7 at a concrete empty SPSC state. -/
theorem ringlog_C7_witness :
    (((Producer.write_event (SpscRingBuffer.mk (List.replicate 64 0) 64 63 0 0)
        (EventHeader.new 0 0 0) []).1 = false ↔
      (EventHeader.new 0 0 0).total_size >
        64 - usizeWrappingSub 0 0 - 1) ∧
    ((Producer.write_event (SpscRingBuffer.mk (List.replicate 64 0) 64 63 0 0)
        (EventHeader.new 0 0 0) []).1 = false →
      (Producer.write_event (SpscRingBuffer.mk (List.replicate 64 0) 64 63 0 0)
        (EventHeader.new 0 0 0) []).2 =
        SpscRingBuffer.mk (List.replicate 64 0) 64 63 0 0) ∧
    ((Consumer.read_event (SpscRingBuffer.mk (List.replicate 64 0) 64 63 0 0)).1 =
        none ↔ (0:Nat) = 0) ∧
    ((Consumer.read_event (SpscRingBuffer.mk (List.replicate 64 0) 64 63 0 0)).1 =
        none →
      (Consumer.read_event (SpscRingBuffer.mk (List.replicate 64 0) 64 63 0 0)).2 =
        SpscRingBuffer.mk (List.replicate 64 0) 64 63 0 0)) :=
  ringlog_C7_spsc_failure_semantics
    (SpscRingBuffer.mk (List.replicate 64 0) 64 63 0 0) (EventHeader.new 0 0 0) []

/-- C8: `RingBuffer::new(capacity)` returns `InvalidCapacity` exactly
when `capacity` is not a power of two (capacity 0 included) or is below
`2 × EventHeader::SIZE = 32`; on success the ring is a zero-filled
buffer of length `capacity` with `head = tail = 0`. -/
theorem ringlog_C8_new_validation (c : Nat) :
    ((∃ cap reason, RingBuffer.new c = .error (.InvalidCapacity cap reason)) ↔
      ((¬ ∃ k, c = 2 ^ k) ∨ c < 32)) ∧
    (∀ rb, RingBuffer.new c = .ok rb →
      rb.buf = List.replicate c 0 ∧ rb.capacity = c ∧ rb.head = 0 ∧ rb.tail = 0) := by
  have hsz : EventHeader.SIZE * 2 = 32 := rfl
  constructor
  · constructor
    · rintro ⟨cap, reason, herr⟩
      by_contra hcon
      push_neg at hcon
      obtain ⟨⟨k, hk⟩, h32⟩ := hcon
      unfold RingBuffer.new at herr
      rw [if_neg (by simp [isPowerOfTwo_iff.mpr ⟨k, hk⟩]),
        if_neg (by omega)] at herr
      cases herr
    · intro hbad
      unfold RingBuffer.new
      by_cases hp : isPowerOfTwo c = true
      · have hlt : c < EventHeader.SIZE * 2 := by
          rcases hbad with hnp | h32
          · exact absurd (isPowerOfTwo_iff.mp hp) hnp
          · omega
        rw [if_neg (by simp [hp]), if_pos hlt]
        exact ⟨c, _, rfl⟩
      · rw [if_pos (by simp [Bool.not_eq_true] at hp; simp [hp])]
        exact ⟨c, _, rfl⟩
  · intro rb hok
    unfold RingBuffer.new at hok
    split_ifs at hok
    injection hok with hok
    subst hok
    exact ⟨rfl, rfl, rfl, rfl⟩

/-- Witness for C8: the two error shapes at 100 and 16, and the success
shape at 128. -/
theorem ringlog_C8_witness :
    ((∃ cap reason, RingBuffer.new 100 = .error (.InvalidCapacity cap reason)) ↔
      ((¬ ∃ k, (100:Nat) = 2 ^ k) ∨ (100:Nat) < 32)) ∧
    ((∃ cap reason, RingBuffer.new 16 = .error (.InvalidCapacity cap reason)) ↔
      ((¬ ∃ k, (16:Nat) = 2 ^ k) ∨ (16:Nat) < 32)) ∧
    ((RingBuffer.mk (List.replicate 128 0) 128 0 0).buf = List.replicate 128 0 ∧
      (RingBuffer.mk (List.replicate 128 0) 128 0 0).capacity = 128 ∧
      (RingBuffer.mk (List.replicate 128 0) 128 0 0).head = 0 ∧
      (RingBuffer.mk (List.replicate 128 0) 128 0 0).tail = 0) :=
  ⟨(ringlog_C8_new_validation 100).1, (ringlog_C8_new_validation 16).1,
    (ringlog_C8_new_validation 128).2 _ (by rfl)⟩

/-- An 80-byte file: a valid `FileHeader` (magic "EVIL", version 1,
`event_count = 1`, `write_offset = 80`) followed by one 16-byte
`EventHeader` whose `payload_len` is 100, so the record's payload range
`[80, 180)` extends past `write_offset` and past the end of the
mapping. -/
def corruptFile : List Nat :=
  encodeFileHeader
    { magic := FileHeader.MAGIC, version := 1, created_at := 0,
      event_count := 1, write_offset := 80, _reserved := List.replicate 32 0 } ++
    (EventHeader.new 0 0 100).bytes

/-- C2: refuted.  The claim says replay halts at a record whose
`payload_len` extends past `write_offset` and never accesses a byte at
or beyond the end of the mapping.  But `MmapReader::event_at` builds the
payload slice with `from_raw_parts(.., payload_len)` without any bounds
check, and `replay`'s loop tests only `offset < write_offset` before
visiting a record.  On `corruptFile` the reader opens successfully, the
record at offset 64 has `payload_len = 100` with payload range
`[80, 180)` extending past `write_offset = 80` and past the 80-byte
mapping, yet replay still visits that record (the visited list is
exactly `[(64, ..)]` and `replay` counts 1), exposing out-of-range
bytes instead of halting before it. -/
theorem ringlog_C2_reader_overrun :
    ∃ r : MmapReader,
      MmapReader.openFile corruptFile = .ok r ∧
      r.mmap.length = 80 ∧
      r.file_header.write_offset = 80 ∧
      (decodeEventHeader ((r.mmap.drop 64).take EventHeader.SIZE)).payload_len = 100 ∧
      replayOffsets r.mmap 64 r.file_header.write_offset =
        [(64, EventHeader.new 0 0 100)] ∧
      64 + EventHeader.SIZE + (EventHeader.new 0 0 100).payload_len > r.mmap.length ∧
      MmapReader.replay r = 1 := by
  have hwo : (decodeFileHeader corruptFile).write_offset = 80 := by decide
  have hrep : replayOffsets corruptFile 64 80 = [(64, EventHeader.new 0 0 100)] := by
    rw [replayOffsets]
    rw [dif_pos (by decide)]
    rw [show decodeEventHeader ((corruptFile.drop 64).take EventHeader.SIZE) =
      EventHeader.new 0 0 100 from by decide]
    rw [replayOffsets]
    rw [dif_neg (by decide)]
  refine ⟨⟨corruptFile, decodeFileHeader corruptFile⟩, rfl, by decide, hwo,
    by decide, ?_, by decide, ?_⟩
  · show replayOffsets corruptFile 64 (decodeFileHeader corruptFile).write_offset = _
    rw [hwo, hrep]
  · show (replayOffsets corruptFile 64
      (decodeFileHeader corruptFile).write_offset).length = 1
    rw [hwo, hrep]
    rfl

/-- C3: `MmapWriter::write_event` fails (returning `false`, state fully
unchanged) exactly when `total_size > mmap_len - write_offset`;
otherwise it returns `true`, writes the 16 header bytes at
`write_offset` followed by the payload bytes, advances `write_offset`
by `total_size`, increments the in-file `event_count` by one (as a
`u64`), and stores the new `write_offset` into the in-file header. -/
theorem ringlog_C3_mmap_write_semantics (w : MmapWriter) (h : EventHeader)
    (p : List Nat) (hpl : p.length = h.payload_len) (hwo : 64 ≤ w.write_offset) :
    (h.total_size > w.mmap.length - w.write_offset →
      w.write_event h p = (false, w)) ∧
    (¬ h.total_size > w.mmap.length - w.write_offset →
      (w.write_event h p).1 = true ∧
      (w.write_event h p).2.write_offset = w.write_offset + h.total_size ∧
      ((w.write_event h p).2.mmap.drop w.write_offset).take 16 = h.bytes ∧
      ((w.write_event h p).2.mmap.drop (w.write_offset + 16)).take h.payload_len = p ∧
      inFileEventCount (w.write_event h p).2.mmap =
        (inFileEventCount w.mmap + 1) % 2 ^ 64 ∧
      ((w.write_event h p).2.mmap.drop 24).take 8 =
        leBytes 8 (w.write_offset + h.total_size)) := by
  constructor
  · intro hgt
    exact mmap_write_event_fail hgt
  · intro hle
    obtain ⟨hok, hwo2, _, hhdr, hpay, hec, hwoseg, _⟩ :=
      mmap_write_event_ok_spec hpl hwo hle
    exact ⟨hok, hwo2, hhdr, hpay, hec, hwoseg⟩

/-- Witness for C3: a 96-byte mapping at `write_offset = 64` accepts an
18-byte record. -/
theorem ringlog_C3_witness :
    ((MmapWriter.mk (List.replicate 96 0) 64).write_event
      (EventHeader.new 7 1 2) [1, 2]).1 = true :=
  ((ringlog_C3_mmap_write_semantics (MmapWriter.mk (List.replicate 96 0) 64)
    (EventHeader.new 7 1 2) [1, 2] (by decide) (by decide)).2 (by decide)).1

/-- C4: after `MmapWriter::create` followed by any sequence of
`write_event` calls (each payload of length `payload_len`), the
persisted file satisfies `64 ≤ write_offset ≤ mapping_length`, the
in-file `event_count` equals the number of successful writes, the
in-file `write_offset` field equals `64` plus the total encoded size of
the successfully written records, and those records sit densely packed
in `[64, write_offset)`. -/
theorem ringlog_C4_persisted_invariant (capacity : Nat) (now : Int)
    (recs : List EventRec) (hcap : capacity < 2 ^ 64)
    (hwf : ∀ r ∈ recs, recWF r) :
    64 ≤ (runWrites (MmapWriter.create capacity now) recs).1.write_offset ∧
    (runWrites (MmapWriter.create capacity now) recs).1.write_offset ≤
      (runWrites (MmapWriter.create capacity now) recs).1.mmap.length ∧
    inFileEventCount (runWrites (MmapWriter.create capacity now) recs).1.mmap =
      (runWrites (MmapWriter.create capacity now) recs).2.length ∧
    inFileWriteOffset (runWrites (MmapWriter.create capacity now) recs).1.mmap =
      64 + (queueBytes (runWrites (MmapWriter.create capacity now) recs).2).length ∧
    (∀ i, i < (queueBytes (runWrites (MmapWriter.create capacity now) recs).2).length →
      (runWrites (MmapWriter.create capacity now) recs).1.mmap.getD (64 + i) 0 =
        (queueBytes (runWrites (MmapWriter.create capacity now) recs).2).getD i 0) := by
  have hinv := runWrites_inv recs (writerInv_create capacity now hcap) hwf
  rw [List.nil_append] at hinv
  refine ⟨?_, hinv.wo_le, hinv.ec_eq, ?_, hinv.content⟩
  · rw [hinv.wo_eq]
    omega
  · rw [hinv.fwo_eq, hinv.wo_eq]

/-- Witness for C4 at capacity 4096 and the empty write sequence. -/
theorem ringlog_C4_witness :
    64 ≤ (runWrites (MmapWriter.create 4096 0) []).1.write_offset :=
  (ringlog_C4_persisted_invariant 4096 0 [] (by decide) (by simp)).1

/-- C9: `MmapReader::open` returns `InvalidData` for every file shorter
than 64 bytes, and for every file of at least 64 bytes whose decoded
header fails validation — which holds exactly when the magic is not
"EVIL" or the version is not 1; on success the decoded header is cached
by value in the reader and `event_count()` / `created_at()` serve its
fields. -/
theorem ringlog_C9_open_validation (file : List Nat) :
    (file.length < 64 →
      MmapReader.openFile file = .error (.InvalidData, "File too small for header")) ∧
    (64 ≤ file.length → (decodeFileHeader file).validate = false →
      MmapReader.openFile file = .error (.InvalidData, "Invalid file header")) ∧
    (64 ≤ file.length → (decodeFileHeader file).validate = true →
      MmapReader.openFile file = .ok (MmapReader.mk file (decodeFileHeader file)) ∧
      (MmapReader.mk file (decodeFileHeader file)).event_count =
        (decodeFileHeader file).event_count ∧
      (MmapReader.mk file (decodeFileHeader file)).created_at =
        (decodeFileHeader file).created_at) ∧
    ((decodeFileHeader file).validate = true ↔
      (decodeFileHeader file).magic = FileHeader.MAGIC ∧
        (decodeFileHeader file).version = FileHeader.VERSION) := by
  refine ⟨?_, ?_, ?_, ?_⟩
  · intro hlt
    unfold MmapReader.openFile
    have hsz : FileHeader.SIZE = 64 := rfl
    rw [if_pos (show file.length < FileHeader.SIZE by omega)]
  · intro h64 hv
    unfold MmapReader.openFile
    have hsz : FileHeader.SIZE = 64 := rfl
    rw [if_neg (show ¬ file.length < FileHeader.SIZE by omega)]
    dsimp only
    rw [if_pos (by rw [hv]; rfl)]
  · intro h64 hv
    refine ⟨?_, rfl, rfl⟩
    unfold MmapReader.openFile
    have hsz : FileHeader.SIZE = 64 := rfl
    rw [if_neg (show ¬ file.length < FileHeader.SIZE by omega)]
    dsimp only
    rw [if_neg (by rw [hv]; simp)]
  · unfold FileHeader.validate
    simp [Bool.and_eq_true, beq_iff_eq]

/-- Witness for C9 on three concrete files: too short, bad magic, and
valid. -/
theorem ringlog_C9_witness :
    MmapReader.openFile (List.replicate 10 0) =
      .error (.InvalidData, "File too small for header") ∧
    MmapReader.openFile (List.replicate 64 0) =
      .error (.InvalidData, "Invalid file header") ∧
    MmapReader.openFile (encodeFileHeader (FileHeader.new 5)) =
      .ok (MmapReader.mk (encodeFileHeader (FileHeader.new 5))
        (decodeFileHeader (encodeFileHeader (FileHeader.new 5)))) :=
  ⟨(ringlog_C9_open_validation (List.replicate 10 0)).1 (by decide),
   (ringlog_C9_open_validation (List.replicate 64 0)).2.1 (by decide) (by decide),
   ((ringlog_C9_open_validation (encodeFileHeader (FileHeader.new 5))).2.2.1
     (by decide) (by decide)).1⟩

/-! ## Store traces of the three writers -/

/-- The buffer indices stored to by `RingBuffer::write_event` (event.rs
lines 47–108), with `plen` standing for `payload.len()`: the guard and
the branch selection use `header.total_size()` (so `payload_len`), while
each `copy_nonoverlapping` of payload bytes copies `payload.len()`
bytes.  `payload.len() - first_chunk` is `usize` subtraction, modelled
by truncated `Nat` subtraction. -/
def ringWriteStores (rb : RingBuffer) (header : EventHeader) (plen : Nat) : List Nat :=
  let total_size := header.total_size
  if total_size > rb.available then []
  else
    let start := rb.head
    let contiguous_space := rb.capacity - start
    if total_size ≤ contiguous_space then
      copyRange start EventHeader.SIZE ++ copyRange (start + EventHeader.SIZE) plen
    else if contiguous_space ≥ EventHeader.SIZE then
      copyRange start EventHeader.SIZE ++
        copyRange (start + EventHeader.SIZE) (contiguous_space - EventHeader.SIZE) ++
        copyRange 0 (plen - (contiguous_space - EventHeader.SIZE))
    else
      copyRange start contiguous_space ++
        copyRange 0 (EventHeader.SIZE - contiguous_space) ++
        copyRange (EventHeader.SIZE - contiguous_space) plen

/-- The buffer indices stored to by `Producer::write_event` (spsc.rs
lines 41–101), with `plen` standing for `payload.len()`; the payload
copies take their length from `payload.len()` while the guard uses
`header.total_size()`, and the first split-payload chunk is guarded by
`first_chunk > 0`. -/
def spscWriteStores (s : SpscRingBuffer) (header : EventHeader) (plen : Nat) : List Nat :=
  let total_size := header.total_size
  if total_size > s.capacity - usizeWrappingSub s.head s.tail - 1 then []
  else
    let start := s.head &&& s.mask
    let contiguous := s.capacity - start
    if total_size ≤ contiguous then
      copyRange start EventHeader.SIZE ++ copyRange (start + EventHeader.SIZE) plen
    else if contiguous ≥ EventHeader.SIZE then
      copyRange start EventHeader.SIZE ++
        (if contiguous - EventHeader.SIZE > 0 then
          copyRange (start + EventHeader.SIZE) (contiguous - EventHeader.SIZE)
        else []) ++
        copyRange 0 (plen - (contiguous - EventHeader.SIZE))
    else
      copyRange start contiguous ++
        copyRange 0 (EventHeader.SIZE - contiguous) ++
        copyRange (EventHeader.SIZE - contiguous) plen

/-- The mapping indices stored to by `MmapWriter::write_event`
(mmap_writer.rs lines 104–123), with `plen` standing for
`payload.len()`: the guard reserves `total_size` (so `payload_len`)
bytes, the payload copy moves `payload.len()` bytes, and
`update_file_header` rewrites the `event_count` and `write_offset`
fields at `[16, 24)` and `[24, 32)`. -/
def mmapWriteStores (w : MmapWriter) (header : EventHeader) (plen : Nat) : List Nat :=
  if header.total_size > w.available then []
  else
    copyRange w.write_offset EventHeader.SIZE ++
      copyRange (w.write_offset + EventHeader.SIZE) plen ++
      copyRange 16 8 ++ copyRange 24 8

theorem ringWriteStores_lt (rb : RingBuffer) (h : EventHeader)
    (hhead : rb.head < rb.capacity) (hcap : 16 ≤ rb.capacity) :
    ∀ a ∈ ringWriteStores rb h h.payload_len, a < rb.capacity := by
  intro a ha
  have h16 : EventHeader.SIZE = 16 := rfl
  have htot : h.total_size = 16 + h.payload_len := rfl
  have havail : rb.available = rb.capacity - rb.used - 1 := rfl
  unfold ringWriteStores at ha
  dsimp only at ha
  split_ifs at ha with hgt hc1 hc2
  · simp at ha
  · simp only [List.mem_append, mem_copyRange] at ha
    omega
  · simp only [List.mem_append, mem_copyRange] at ha
    omega
  · simp only [List.mem_append, mem_copyRange] at ha
    omega

theorem spscWriteStores_lt (s : SpscRingBuffer) (h : EventHeader)
    (hmask : s.mask = s.capacity - 1) (hcap : 16 ≤ s.capacity) :
    ∀ a ∈ spscWriteStores s h h.payload_len, a < s.capacity := by
  intro a ha
  have h16 : EventHeader.SIZE = 16 := rfl
  have htot : h.total_size = 16 + h.payload_len := rfl
  have hstart : s.head &&& s.mask ≤ s.mask := Nat.and_le_right
  unfold spscWriteStores at ha
  dsimp only at ha
  split_ifs at ha with hgt hc1 hc2 hfc
  · simp at ha
  · simp only [List.mem_append, mem_copyRange] at ha
    omega
  · simp only [List.mem_append, mem_copyRange] at ha
    omega
  · simp only [List.mem_append, List.not_mem_nil, mem_copyRange, or_false,
      false_or] at ha
    omega
  · simp only [List.mem_append, mem_copyRange] at ha
    omega

theorem mmapWriteStores_lt (w : MmapWriter) (h : EventHeader)
    (hwo : 64 ≤ w.write_offset) :
    ∀ a ∈ mmapWriteStores w h h.payload_len, a < w.mmap.length := by
  intro a ha
  have h16 : EventHeader.SIZE = 16 := rfl
  have htot : h.total_size = 16 + h.payload_len := rfl
  have havail : w.available = w.mmap.length - w.write_offset := rfl
  unfold mmapWriteStores at ha
  split_ifs at ha with hgt
  · simp at ha
  · simp only [List.mem_append, mem_copyRange] at ha
    omega

/-- C10: each of the three writers copies `payload.len()` bytes while
the space guard and the branch selection reserve by
`header.payload_len`, and none checks equality of the two.  Under the
unchecked precondition `payload.len() = payload_len` every byte store
lands inside the backing buffer or mapping; dropping the precondition,
each writer admits a state and arguments that pass its guard yet store
to an index at or beyond the end of the buffer or mapping. -/
theorem ringlog_C10_payload_len_precondition :
    (∀ (rb : RingBuffer) (h : EventHeader), rb.head < rb.capacity →
      16 ≤ rb.capacity → ∀ a ∈ ringWriteStores rb h h.payload_len, a < rb.capacity) ∧
    (∀ (s : SpscRingBuffer) (h : EventHeader), s.mask = s.capacity - 1 →
      16 ≤ s.capacity → ∀ a ∈ spscWriteStores s h h.payload_len, a < s.capacity) ∧
    (∀ (w : MmapWriter) (h : EventHeader), 64 ≤ w.write_offset →
      ∀ a ∈ mmapWriteStores w h h.payload_len, a < w.mmap.length) ∧
    (∃ (rb : RingBuffer) (h : EventHeader) (plen a : Nat),
      plen ≠ h.payload_len ∧ a ∈ ringWriteStores rb h plen ∧ rb.capacity ≤ a) ∧
    (∃ (s : SpscRingBuffer) (h : EventHeader) (plen a : Nat),
      plen ≠ h.payload_len ∧ a ∈ spscWriteStores s h plen ∧ s.capacity ≤ a) ∧
    (∃ (w : MmapWriter) (h : EventHeader) (plen a : Nat),
      plen ≠ h.payload_len ∧ a ∈ mmapWriteStores w h plen ∧ w.mmap.length ≤ a) :=
  ⟨ringWriteStores_lt, spscWriteStores_lt, mmapWriteStores_lt,
   ⟨RingBuffer.mk (List.replicate 32 0) 32 0 0, EventHeader.new 0 0 4, 20, 35,
     by decide, by decide, by decide⟩,
   ⟨SpscRingBuffer.mk (List.replicate 64 0) 64 63 0 0, EventHeader.new 0 0 4, 60, 70,
     by decide, by decide, by decide⟩,
   ⟨MmapWriter.mk (List.replicate 96 0) 64, EventHeader.new 0 0 4, 40, 100,
     by decide, by decide, by decide⟩⟩

/-- Witness for C10's guarded conjuncts at concrete states: index 5 is
stored to by a fresh capacity-32 ring write and stays in bounds. -/
theorem ringlog_C10_witness :
    5 < (RingBuffer.mk (List.replicate 32 0) 32 0 0).capacity :=
  ringlog_C10_payload_len_precondition.1 (RingBuffer.mk (List.replicate 32 0) 32 0 0)
    (EventHeader.new 0 0 4) (by decide) (by decide) 5 (by decide)
